import Mathlib

/-!
Verification of the review-agent repository: a shallow embedding of its
indexing pipeline (collection naming, point-id generation, chunkers) and of
its agent tool-call loops (review and fix), together with theorems settling
the specification claims C1 to C10.

Strings manipulated by the chunkers are modelled as lists of characters;
Python dictionaries are modelled as association lists.  Machine integers are
modelled as natural numbers with explicit reduction modulo powers of two.
-/

namespace ReviewAgent

/-! Model of Python values as passed through tool inputs and results. -/

inductive PyVal where
  | str (s : String)
  | int (n : Int)
  | bool (b : Bool)
  | none
  | list (xs : List PyVal)
  | dict (kvs : List (String × PyVal))

mutual

/-- Python repr of a value: single-quoted strings, True and None keywords,
bracketed lists and braced dicts, as produced by CPython. -/
def pyRepr : PyVal → String
  | .str s => "\x27" ++ s ++ "\x27"
  | .int n => toString n
  | .bool b => if b then "True" else "False"
  | .none => "None"
  | .list xs => "[" ++ pyReprList xs ++ "]"
  | .dict kvs => "\x7b" ++ pyReprKVs kvs ++ "\x7d"

def pyReprList : List PyVal → String
  | [] => ""
  | [x] => pyRepr x
  | x :: y :: rest => pyRepr x ++ ", " ++ pyReprList (y :: rest)

def pyReprKVs : List (String × PyVal) → String
  | [] => ""
  | [(k, v)] => "\x27" ++ k ++ "\x27: " ++ pyRepr v
  | (k, v) :: e :: rest => "\x27" ++ k ++ "\x27: " ++ pyRepr v ++ ", " ++ pyReprKVs (e :: rest)

end

/-- Python str() of a value: a bare string for str inputs, repr otherwise. -/
def pyStr : PyVal → String
  | .str s => s
  | v => pyRepr v

/-- Python dict lookup d[k] on an association list (first binding wins). -/
def pyLookup (kvs : List (String × PyVal)) (k : String) : Option PyVal :=
  match kvs.find? (fun kv => kv.1 = k) with
  | Option.none => Option.none
  | Option.some kv => Option.some kv.2

/-! Collection naming.

Source: services/indexer/main.py, CodebaseIndexer._collection_name, and the
identical copy in services/claude-agent/tools/codebase.py, _collection_name:
both compute f"{owner}_{repo}".replace("-", "_").lower(). -/

/-- Python str.replace("-", "_"): single-character replacement. -/
def dashToUnderscore (s : String) : String :=
  String.mk (s.toList.map (fun c => if c = '-' then '_' else c))

/-- Python str.lower() restricted to ASCII characters. -/
def pyLower (s : String) : String :=
  String.mk (s.toList.map Char.toLower)

namespace CodebaseIndexer

/-- Embedding of CodebaseIndexer._collection_name (indexer/main.py). -/
def collection_name (owner repo : String) : String :=
  pyLower (dashToUnderscore (owner ++ "_" ++ repo))

end CodebaseIndexer

namespace CodebaseTools

/-- Embedding of _collection_name (claude-agent/tools/codebase.py). -/
def collection_name (owner repo : String) : String :=
  pyLower (dashToUnderscore (owner ++ "_" ++ repo))

end CodebaseTools

/-- Normalization applied to each component by the collection-name transform. -/
def normalizeComponent (s : String) : String :=
  pyLower (dashToUnderscore s)

/-! Point-id generation.

Source: services/indexer/main.py, CodebaseIndexer.index_file, line 105:
point_id = hash(f"{file_path}:{chunk.start_line}:{ref}") % (2**63).
CPython's built-in hash() on a str applies SipHash-1-3 keyed with the
per-process randomized secret (_Py_HashSecret, seeded from PYTHONHASHSEED or
OS randomness), reinterprets the result as a signed 64-bit integer and maps
-1 to -2.  The embedding below implements CPython's pysiphash13 exactly,
parameterized by the two 64-bit key words k0, k1; a fresh process draws a
fresh key. -/

/-- Reduction of a natural number into the unsigned 64-bit range. -/
def wrap64 (n : Nat) : Nat := n % 2 ^ 64

/-- Left rotation of a 64-bit word by n bits (0 < n < 64), in plain
arithmetic: the low 64-n bits move up, the high n bits move down. -/
def rotl64 (x n : Nat) : Nat := x % 2 ^ (64 - n) * 2 ^ n + x / 2 ^ (64 - n)

/-- Bitwise exclusive or of the k low bits of two naturals. -/
def bitXorAux : Nat → Nat → Nat → Nat
  | 0, _, _ => 0
  | k + 1, a, b => (if a % 2 = b % 2 then 0 else 1) + 2 * bitXorAux k (a / 2) (b / 2)

/-- Bitwise exclusive or on 64-bit words. -/
def xor64 (a b : Nat) : Nat := bitXorAux 64 a b

/-- Little-endian interpretation of a byte list as a natural number. -/
def le64 : List Nat → Nat
  | [] => 0
  | b :: rest => b + 256 * le64 rest

/-- One SipHash round (the SINGLE_ROUND of CPython's pyhash.c). -/
def sipRound : Nat × Nat × Nat × Nat → Nat × Nat × Nat × Nat :=
  fun (v0, v1, v2, v3) =>
    let v0 := wrap64 (v0 + v1)
    let v2 := wrap64 (v2 + v3)
    let v1 := xor64 (rotl64 v1 13) v0
    let v3 := xor64 (rotl64 v3 16) v2
    let v0 := rotl64 v0 32
    let v2 := wrap64 (v2 + v1)
    let v0 := wrap64 (v0 + v3)
    let v1 := xor64 (rotl64 v1 17) v2
    let v3 := xor64 (rotl64 v3 21) v0
    let v2 := rotl64 v2 32
    (v0, v1, v2, v3)

/-- Absorb the full 8-byte blocks of the input, returning the updated state
and the remaining (fewer than eight) bytes. -/
def sipBlocks : Nat × Nat × Nat × Nat → List Nat → (Nat × Nat × Nat × Nat) × List Nat
  | v, b0 :: b1 :: b2 :: b3 :: b4 :: b5 :: b6 :: b7 :: rest =>
      let mi := le64 [b0, b1, b2, b3, b4, b5, b6, b7]
      let (v0, v1, v2, v3) := v
      let v3 := xor64 v3 mi
      let (v0, v1, v2, v3) := sipRound (v0, v1, v2, v3)
      let v0 := xor64 v0 mi
      sipBlocks (v0, v1, v2, v3) rest
  | v, rest => (v, rest)

/-- SipHash-1-3 over a byte list with 128-bit key (k0, k1), exactly as in
CPython's pyhash.c siphash13. -/
def siphash13 (k0 k1 : Nat) (data : List Nat) : Nat :=
  let v0 := xor64 k0 0x736f6d6570736575
  let v1 := xor64 k1 0x646f72616e646f6d
  let v2 := xor64 k0 0x6c7967656e657261
  let v3 := xor64 k1 0x7465646279746573
  let (v, rest) := sipBlocks (v0, v1, v2, v3) data
  let (v0, v1, v2, v3) := v
  let b := data.length % 256 * 2 ^ 56 + le64 rest
  let v3 := xor64 v3 b
  let (v0, v1, v2, v3) := sipRound (v0, v1, v2, v3)
  let v0 := xor64 v0 b
  let v2 := xor64 v2 0xff
  let (v0, v1, v2, v3) := sipRound (sipRound (sipRound (v0, v1, v2, v3)))
  xor64 (xor64 v0 v1) (xor64 v2 v3)

/-- CPython hash() of an ASCII str under process key (k0, k1): zero for the
empty string, otherwise SipHash-1-3 of the bytes reinterpreted as a signed
64-bit integer, with -1 mapped to -2. -/
def pyHash_str (k0 k1 : Nat) (s : String) : Int :=
  if s.toList.length = 0 then 0
  else
    let t := siphash13 k0 k1 (s.toList.map Char.toNat)
    let x : Int := if t < 2 ^ 63 then (t : Int) else (t : Int) - 2 ^ 64
    if x = -1 then -2 else x

/-- Embedding of the point-id computation of CodebaseIndexer.index_file:
hash(f"{file_path}:{chunk.start_line}:{ref}") % (2**63), under process hash
key (k0, k1).  Python's % on a positive modulus is the nonnegative
(Euclidean) remainder, as is Lean's Int.emod. -/
def point_id (k0 k1 : Nat) (file_path : String) (start_line : Nat) (ref : String) : Int :=
  pyHash_str k0 k1 (file_path ++ ":" ++ toString start_line ++ ":" ++ ref) % (2 ^ 63 : Int)

/-- A chunk as produced by the chunkers (the CodeChunk dataclass); text is
modelled as a list of characters. -/
structure Chunk where
  content : List Char
  file_path : String
  start_line : Nat
  end_line : Nat
  chunk_type : String
  name : Option String
  language : String
deriving DecidableEq, Repr

/-- The ids of the points CodebaseIndexer.index_file upserts for a list of
chunks, one per chunk, under process hash key (k0, k1). -/
def index_file_point_ids (k0 k1 : Nat) (file_path ref : String) (chunks : List Chunk) : List Int :=
  chunks.map (fun c => point_id k0 k1 file_path c.start_line ref)

/-! Text utilities shared by the chunkers.  File content is modelled as a
list of characters; Python content.split("\n") is splitNl, "\n".join is
joinNl. -/

/-- Whether the second list starts with the first. -/
def startsWithList : List Char → List Char → Bool
  | [], _ => true
  | _ :: _, [] => false
  | a :: as, b :: bs => (decide (a = b)) && startsWithList as bs

/-- Substring test on character lists (needle, haystack). -/
def hasSubAux (needle : List Char) : List Char → Bool
  | [] => needle.isEmpty
  | c :: rest => startsWithList needle (c :: rest) || hasSubAux needle rest

/-- Python needle in haystack on strings. -/
def pyInStr (needle hay : String) : Bool := hasSubAux needle.toList hay.toList

/-- Python s.endswith(suffix). -/
def pyEndsWith (s suffix : String) : Bool :=
  startsWithList suffix.toList.reverse s.toList.reverse

/-- Python whitespace characters (ASCII range), as tested by str.strip. -/
def isPySpace (c : Char) : Bool :=
  c = ' ' || c = '\t' || c = '\n' || c = '\r' || c = '\x0b' || c = '\x0c'

/-- Python str.strip(): remove leading and trailing whitespace. -/
def pyStripChars (l : List Char) : List Char :=
  ((l.dropWhile isPySpace).reverse.dropWhile isPySpace).reverse

/-- Python content.split("\n"): always yields at least one (possibly empty)
line. -/
def splitNl : List Char → List (List Char)
  | [] => [[]]
  | c :: rest =>
      if c = '\n' then [] :: splitNl rest
      else
        match splitNl rest with
        | [] => [[c]]
        | l :: ls => (c :: l) :: ls

/-- Python "\n".join(lines). -/
def joinNl : List (List Char) → List Char
  | [] => []
  | [l] => l
  | l :: l2 :: ls => l ++ '\n' :: joinNl (l2 :: ls)

/-- Joining lines start_line through end_line (1-based, inclusive) of the
original content, given its split into lines. -/
def reconstructL (lines : List (List Char)) (start_line end_line : Nat) : List Char :=
  joinNl ((lines.drop (start_line - 1)).take (end_line + 1 - start_line))

/-- The line-range invariant a chunk is claimed to satisfy against the
content it was extracted from. -/
def chunkGood (content : List Char) (c : Chunk) : Prop :=
  c.start_line ≤ c.end_line ∧ reconstructL (splitNl content) c.start_line c.end_line = c.content

/-- Python file_path.split("/")[-1]. -/
def fileBasename (file_path : String) : String :=
  (file_path.splitOn "/").getLastD file_path

/-! Markdown chunker.

Source: services/indexer/chunkers/markdown.py, MarkdownChunker.chunk.  The
header test embeds the regex r"^(#\x7b1,6\x7d)\s+(.+)$" matched with re.match:
one to six leading hash marks, at least one whitespace character, then at
least one further character. -/

/-- Number of leading hash marks of a line. -/
def headerHashCount (l : List Char) : Nat := (l.takeWhile (fun c => c = '#')).length

/-- Whether a line matches the markdown header pattern. -/
def headerMatches (line : List Char) : Bool :=
  let k := headerHashCount line
  decide (1 ≤ k) && decide (k ≤ 6) && decide (k + 2 ≤ line.length) &&
    (line.get? k).elim false isPySpace

/-- Second capture group of the header regex, stripped: with backtracking,
the greedy whitespace run leaves at least one character for the final
group. -/
def headerName (line : List Char) : List Char :=
  let rest := line.drop (headerHashCount line)
  let g2 := if (rest.dropWhile isPySpace).isEmpty
    then rest.drop (rest.length - 1)
    else rest.dropWhile isPySpace
  pyStripChars g2

/-- Mutable loop state of MarkdownChunker.chunk: emitted chunks, the current
section lines, its name, and its 1-based start line. -/
structure MdState where
  chunks : List Chunk
  cur : List (List Char)
  curName : Option (List Char)
  curStart : Nat

/-- Whether the current section is saved: nonempty and not all-blank. -/
def mdKeep (cur : List (List Char)) : Bool :=
  !cur.isEmpty && cur.any (fun s => !(pyStripChars s).isEmpty)

/-- One iteration of the markdown line loop at 1-based line number i. -/
def mdStep (fp : String) (i : Nat) (line : List Char) (st : MdState) : MdState :=
  if headerMatches line then
    let chunks :=
      if mdKeep st.cur then
        st.chunks ++
          [⟨joinNl st.cur, fp, st.curStart, i - 1, "section", st.curName.map String.mk, "markdown"⟩]
      else st.chunks
    ⟨chunks, [line], Option.some (headerName line), i⟩
  else
    ⟨st.chunks, st.cur ++ [line], st.curName, st.curStart⟩

/-- The markdown line loop, processing the remaining lines from 1-based
line number i. -/
def mdProcess (fp : String) : Nat → MdState → List (List Char) → MdState
  | _, st, [] => st
  | i, st, line :: rest => mdProcess fp (i + 1) (mdStep fp i line st) rest

/-- The trailing flush of the last section (end line is the line count). -/
def mdFlush (fp : String) (st : MdState) (lastLine : Nat) : List Chunk :=
  if mdKeep st.cur then
    st.chunks ++
      [⟨joinNl st.cur, fp, st.curStart, lastLine, "section", st.curName.map String.mk, "markdown"⟩]
  else st.chunks

namespace MarkdownChunker

/-- Embedding of MarkdownChunker.chunk (chunkers/markdown.py). -/
def chunk (content : List Char) (file_path : String) : List Chunk :=
  let lines := splitNl content
  let st := mdProcess file_path 1 ⟨[], [], Option.none, 1⟩ lines
  let chunks := mdFlush file_path st lines.length
  if chunks.isEmpty && !(pyStripChars content).isEmpty then
    [⟨content, file_path, 1, lines.length, "document", some (fileBasename file_path), "markdown"⟩]
  else chunks

end MarkdownChunker

/-! Python AST chunker.

Source: services/indexer/chunkers/ast_chunker.py, PythonASTChunker.  The
external CPython ast.parse is modelled by handing chunk an optional tree:
none stands for a SyntaxError.  FunctionDef and AsyncFunctionDef are handled
identically by the source, so a single constructor covers both; only the
fields the chunker reads (name, lineno, end_lineno, decorator linenos,
child statements) are modelled. -/

inductive PyAst where
  | functionDef (name : String) (lineno : Nat) (endLineno : Option Nat)
      (decorators : List Nat) (body : List PyAst)
  | classDef (name : String) (lineno : Nat) (endLineno : Option Nat)
      (decorators : List Nat) (body : List PyAst)
  | otherNode (children : List PyAst)

namespace PythonASTChunker

/-- Embedding of PythonASTChunker._get_source_segment: the slice
source_lines[start_line - 1 : end_line], joined with newlines. -/
def get_source_segment (source_lines : List (List Char)) (start_line end_line : Nat) : List Char :=
  joinNl ((source_lines.drop (start_line - 1)).take (end_line - (start_line - 1)))

/-- Embedding of PythonASTChunker._get_end_line: end_lineno when present and
truthy, else lineno. -/
def get_end_line (lineno : Nat) (endLineno : Option Nat) : Nat :=
  match endLineno with
  | Option.some e => if e ≠ 0 then e else lineno
  | Option.none => lineno

/-- Start line including decorators: min of the decorator linenos when any
exist, else the node's own lineno. -/
def decoStart (lineno : Nat) (decorators : List Nat) : Nat :=
  match decorators with
  | [] => lineno
  | d :: rest => rest.foldl Nat.min d

mutual

/-- Embedding of PythonASTChunker._extract_chunks. -/
def extract_chunks (source_lines : List (List Char)) (fp : String)
    (parent_class : Option String) : PyAst → List Chunk
  | .functionDef name lineno endL ds _body =>
      let start_line := decoStart lineno ds
      let end_line := get_end_line lineno endL
      let content := get_source_segment source_lines start_line end_line
      let ct := if parent_class.isSome then "method" else "function"
      let qn := match parent_class with
        | Option.some p => p ++ "." ++ name
        | Option.none => name
      [⟨content, fp, start_line, end_line, ct, some qn, "python"⟩]
  | .classDef name lineno endL ds body =>
      let start_line := decoStart lineno ds
      let end_line := get_end_line lineno endL
      let content := get_source_segment source_lines start_line end_line
      ⟨content, fp, start_line, end_line, "class", some name, "python"⟩ ::
        extract_chunks_list source_lines fp (some name) body
  | .otherNode children => extract_chunks_list source_lines fp parent_class children

/-- The chunks.extend loop over an iter_child_nodes sequence, in order. -/
def extract_chunks_list (source_lines : List (List Char)) (fp : String)
    (parent_class : Option String) : List PyAst → List Chunk
  | [] => []
  | a :: rest =>
      extract_chunks source_lines fp parent_class a ++
        extract_chunks_list source_lines fp parent_class rest

end

/-- Embedding of PythonASTChunker.chunk; parseResult is the outcome of the
external ast.parse (none on SyntaxError). -/
def chunk (parseResult : Option PyAst) (content : List Char) (file_path : String) : List Chunk :=
  match parseResult with
  | Option.none =>
      [⟨content, file_path, 1, content.count '\n' + 1, "module",
        some (fileBasename file_path), "python"⟩]
  | Option.some tree =>
      let source_lines := splitNl content
      let chunks := extract_chunks source_lines file_path Option.none tree
      if chunks.isEmpty && !(pyStripChars content).isEmpty then
        [⟨content, file_path, 1, source_lines.length, "module",
          some (fileBasename file_path), "python"⟩]
      else chunks

end PythonASTChunker

/-- Well-formedness of a CPython AST as the runtime guarantees it: line
numbers are 1-based, decorators precede the decorated node, and end_lineno
is at least lineno. -/
inductive WfAst : PyAst → Prop where
  | functionDef {name lineno endL ds body} :
      1 ≤ lineno → (∀ d ∈ ds, 1 ≤ d ∧ d ≤ lineno) →
      (∀ e, endL = Option.some e → lineno ≤ e) →
      (∀ a ∈ body, WfAst a) → WfAst (.functionDef name lineno endL ds body)
  | classDef {name lineno endL ds body} :
      1 ≤ lineno → (∀ d ∈ ds, 1 ≤ d ∧ d ≤ lineno) →
      (∀ e, endL = Option.some e → lineno ≤ e) →
      (∀ a ∈ body, WfAst a) → WfAst (.classDef name lineno endL ds body)
  | otherNode {children} :
      (∀ a ∈ children, WfAst a) → WfAst (.otherNode children)

/-! Tree-sitter chunker.

Source: services/indexer/chunkers/treesitter.py, TreeSitterChunker.  The
external tree-sitter parser is modelled by handing chunk the parsed tree: a
node carries its type, byte span, start and end points (row, column; the
end point is exclusive, the position just past the node) and children, as
the tree-sitter API exposes them.  Source bytes are modelled as the
character list of ASCII content. -/

inductive TSNode where
  | node (ty : String) (start_byte end_byte start_row start_col end_row end_col : Nat)
      (children : List TSNode)

namespace TreeSitterChunker

/-- The node types extracted as chunks (TreeSitterChunker._should_chunk). -/
def chunkable_types : List String :=
  ["function_declaration", "function_expression", "arrow_function",
   "method_definition", "class_declaration", "class_expression",
   "interface_declaration", "type_alias_declaration", "enum_declaration"]

/-- Embedding of TreeSitterChunker._should_chunk. -/
def should_chunk (ty : String) : Bool := chunkable_types.contains ty

/-- The node-type to chunk-type mapping (TreeSitterChunker._get_chunk_type). -/
def chunk_type_mapping : List (String × String) :=
  [("function_declaration", "function"), ("function_expression", "function"),
   ("arrow_function", "function"), ("method_definition", "method"),
   ("class_declaration", "class"), ("class_expression", "class"),
   ("interface_declaration", "interface"), ("type_alias_declaration", "type"),
   ("enum_declaration", "enum"), ("export_statement", "export"),
   ("lexical_declaration", "variable"), ("variable_declaration", "variable")]

/-- Embedding of TreeSitterChunker._get_chunk_type. -/
def get_chunk_type (ty : String) : String :=
  ((chunk_type_mapping.find? (fun p => p.1 = ty)).map Prod.snd).getD "other"

/-- The byte span source[start_byte : end_byte] of a node. -/
def node_text (source : List Char) (sb eb : Nat) : List Char :=
  (source.drop sb).take (eb - sb)

/-- Inner loop of _extract_name over a variable_declarator's children. -/
def find_ident_sub : List TSNode → Option (Nat × Nat)
  | [] => Option.none
  | .node ty sb eb _ _ _ _ _ :: rest =>
      if ty = "identifier" || ty = "property_identifier" then Option.some (sb, eb)
      else find_ident_sub rest

/-- Embedding of TreeSitterChunker._extract_name over a node's children:
first identifier-like child, descending one level into
variable_declarator patterns. -/
def extract_name_aux : List TSNode → Option (Nat × Nat)
  | [] => Option.none
  | .node ty sb eb _ _ _ _ subchildren :: rest =>
      if ty = "identifier" || ty = "property_identifier" then Option.some (sb, eb)
      else if ty = "variable_declarator" then
        match find_ident_sub subchildren with
        | Option.some r => Option.some r
        | Option.none => extract_name_aux rest
      else extract_name_aux rest

mutual

/-- Embedding of TreeSitterChunker._walk_tree: chunk the node itself when it
is a chunkable type whose stripped byte-span text exceeds 20 characters,
then recurse into the children in order. -/
def walk_tree (source : List Char) (fp : String) (language : String) : TSNode → List Chunk
  | .node ty sb eb sr _sc er _ec children =>
      let here :=
        if should_chunk ty then
          let content := node_text source sb eb
          if 20 < (pyStripChars content).length then
            [⟨content, fp, sr + 1, er + 1, get_chunk_type ty,
              (extract_name_aux children).map (fun p => String.mk (node_text source p.1 p.2)),
              language⟩]
          else []
        else []
      here ++ walk_children source fp language children

/-- The yield-from recursion over a node's children, in order. -/
def walk_children (source : List Char) (fp : String) (language : String) :
    List TSNode → List Chunk
  | [] => []
  | n :: rest => walk_tree source fp language n ++ walk_children source fp language rest

end

/-- Embedding of TreeSitterChunker._get_parser's language selection. -/
def language_of (file_path : String) : String :=
  if pyEndsWith file_path ".tsx" then "tsx"
  else if pyEndsWith file_path ".ts" then "typescript"
  else if pyEndsWith file_path ".jsx" then "jsx"
  else "javascript"

/-- Embedding of TreeSitterChunker.chunk; root is the tree produced by the
external tree-sitter parse of content. -/
def chunk (root : TSNode) (content : List Char) (file_path : String) : List Chunk :=
  let language := language_of file_path
  let chunks := walk_tree content file_path language root
  if chunks.isEmpty && !(pyStripChars content).isEmpty then
    [⟨content, file_path, 1, content.count '\n' + 1, "module",
      some (fileBasename file_path), language⟩]
  else chunks

end TreeSitterChunker

/-- Byte offset of the start of a 0-based row within joined lines: the
lengths of the preceding lines plus one newline per preceding line. -/
def lineStart (lines : List (List Char)) (row : Nat) : Nat :=
  ((lines.take row).map List.length).sum + row

/-- Byte offset of a (row, column) point within joined lines. -/
def posOffset (lines : List (List Char)) (row col : Nat) : Nat :=
  lineStart lines row + col

mutual

/-- Consistency of a tree-sitter node with the source it was parsed from,
as the tree-sitter runtime guarantees: byte offsets agree with the (row,
column) points, the span runs forward, and points lie within the line
structure. -/
def tsWf (lines : List (List Char)) : TSNode → Bool
  | .node _ sb eb sr sc er ec children =>
      decide (sb = posOffset lines sr sc) && decide (eb = posOffset lines er ec) &&
      decide (sb ≤ eb) && decide (sr ≤ er) && decide (er < lines.length) &&
      decide (sc ≤ ((lines.getD sr []).length)) && decide (ec ≤ ((lines.getD er []).length)) &&
      tsWfList lines children

/-- Consistency of every node of a child list. -/
def tsWfList (lines : List (List Char)) : List TSNode → Bool
  | [] => true
  | n :: rest => tsWf lines n && tsWfList lines rest

end

/-! Agent loops.

Source: services/claude-agent/agents/review_agent.py (ReviewAgent.review_pr
and ReviewAgent._handle_tool_call) and agents/fix_agent.py (FixAgent.fix_code
and FixAgent._handle_tool_call).  The external language model is a function
from the conversation to one assistant response; the external collaborators
(Qdrant search, GitHub content, comment and commit endpoints) are functions
returning Except, whose error carries str(e) of the raised exception.  The
per-run constants (owner, repo, pr_number, head_sha, branch) are absorbed
into those collaborator closures.  Each dispatched tool call additionally
records, as ghost state, which handler was entered with which arguments and
the outcome of the wrapped try body. -/

/-- A content block of an assistant turn. -/
inductive Block where
  | text (t : String)
  | tool_use (id : String) (name : String) (input : List (String × PyVal))

/-- One model response: content blocks plus the stop reason. -/
structure ModelResponse where
  content : List Block
  stop_reason : String

/-- A tool_result entry as built by _handle_tool_call; is_error = false
models the absence of the is_error key. -/
structure ToolResult where
  tool_use_id : String
  content : String
  is_error : Bool
deriving DecidableEq, Repr

/-- Content of a user-role message: the initial task text or a combined
tool-results turn. -/
inductive TurnContent where
  | text (s : String)
  | results (rs : List ToolResult)

/-- A conversation message. -/
inductive Message where
  | user (c : TurnContent)
  | assistant (blocks : List Block)

/-- Python str() of the tool_result dict, as tested by the fix agent's
substring check ("error" not in str(tool_result)). -/
def strToolResult (tr : ToolResult) : String :=
  "\x7b\x27type\x27: \x27tool_result\x27, \x27tool_use_id\x27: " ++ pyRepr (.str tr.tool_use_id) ++
    ", \x27content\x27: " ++ pyRepr (.str tr.content) ++
    (if tr.is_error then ", \x27is_error\x27: True" else "") ++ "\x7d"

/-- Python str(KeyError(k)): the repr of the missing key. -/
def keyErrorMsg (k : String) : String := "\x27" ++ k ++ "\x27"

/-- A handler invocation with the arguments it received. -/
inductive HCall where
  | search_call (query lim : PyVal)
  | get_file_call (file_path : PyVal)
  | post_comment_call (file_path line body side : PyVal)
  | commit_fix_call (file_path new_content commit_message : PyVal)

/-- The collaborators reachable from ReviewAgent._handle_tool_call. -/
structure ReviewCollab where
  search_codebase : PyVal → PyVal → Except String PyVal
  get_file_content : PyVal → Except String PyVal
  post_review_comment : PyVal → PyVal → PyVal → PyVal → Except String PyVal

/-- The collaborators reachable from FixAgent._handle_tool_call. -/
structure FixCollab where
  search_codebase : PyVal → PyVal → Except String PyVal
  get_file_content : PyVal → Except String PyVal
  commit_fix : PyVal → PyVal → PyVal → Except String PyVal

/-- The try body of ReviewAgent._handle_tool_call: argument extraction (a
missing required key raises KeyError before the handler is called), the
handler call, or the unknown-tool dict.  Also returns the handler entries. -/
def reviewTryBody (c : ReviewCollab) (name : String) (input : List (String × PyVal)) :
    Except String PyVal × List HCall :=
  if name = "search_codebase" then
    match pyLookup input "query" with
    | Option.none => (Except.error (keyErrorMsg "query"), [])
    | Option.some q =>
        let lim := (pyLookup input "limit").getD (PyVal.int 5)
        (c.search_codebase q lim, [HCall.search_call q lim])
  else if name = "get_file_content" then
    match pyLookup input "file_path" with
    | Option.none => (Except.error (keyErrorMsg "file_path"), [])
    | Option.some fp => (c.get_file_content fp, [HCall.get_file_call fp])
  else if name = "post_review_comment" then
    match pyLookup input "file_path" with
    | Option.none => (Except.error (keyErrorMsg "file_path"), [])
    | Option.some fp =>
        match pyLookup input "line" with
        | Option.none => (Except.error (keyErrorMsg "line"), [])
        | Option.some ln =>
            match pyLookup input "body" with
            | Option.none => (Except.error (keyErrorMsg "body"), [])
            | Option.some bd =>
                let sd := (pyLookup input "side").getD (PyVal.str "RIGHT")
                (c.post_review_comment fp ln bd sd, [HCall.post_comment_call fp ln bd sd])
  else
    (Except.ok (PyVal.dict [("error", PyVal.str ("Unknown tool: " ++ name))]), [])

/-- The try body of FixAgent._handle_tool_call. -/
def fixTryBody (c : FixCollab) (name : String) (input : List (String × PyVal)) :
    Except String PyVal × List HCall :=
  if name = "search_codebase" then
    match pyLookup input "query" with
    | Option.none => (Except.error (keyErrorMsg "query"), [])
    | Option.some q =>
        let lim := (pyLookup input "limit").getD (PyVal.int 5)
        (c.search_codebase q lim, [HCall.search_call q lim])
  else if name = "get_file_content" then
    match pyLookup input "file_path" with
    | Option.none => (Except.error (keyErrorMsg "file_path"), [])
    | Option.some fp => (c.get_file_content fp, [HCall.get_file_call fp])
  else if name = "commit_fix" then
    match pyLookup input "file_path" with
    | Option.none => (Except.error (keyErrorMsg "file_path"), [])
    | Option.some fp =>
        match pyLookup input "new_content" with
        | Option.none => (Except.error (keyErrorMsg "new_content"), [])
        | Option.some nc =>
            match pyLookup input "commit_message" with
            | Option.none => (Except.error (keyErrorMsg "commit_message"), [])
            | Option.some cm =>
                (c.commit_fix fp nc cm, [HCall.commit_fix_call fp nc cm])
  else
    (Except.ok (PyVal.dict [("error", PyVal.str ("Unknown tool: " ++ name))]), [])

/-- Record of one dispatched tool invocation: the name and arguments, the
handler entries (ghost), the try-body outcome (ghost) and the tool_result
returned to the conversation. -/
structure Dispatch where
  name : String
  input : List (String × PyVal)
  calls : List HCall
  outcome : Except String PyVal
  result : ToolResult

/-- Embedding of ReviewAgent._handle_tool_call: the try body's value is
stringified on success; an exception is caught and becomes an error-marked
result carrying Error: str(e). -/
def handle_tool_call_review (c : ReviewCollab) (id name : String)
    (input : List (String × PyVal)) : Dispatch :=
  let (outcome, calls) := reviewTryBody c name input
  let result : ToolResult :=
    match outcome with
    | Except.ok r => ⟨id, pyStr r, false⟩
    | Except.error e => ⟨id, "Error: " ++ e, true⟩
  ⟨name, input, calls, outcome, result⟩

/-- Embedding of FixAgent._handle_tool_call. -/
def handle_tool_call_fix (c : FixCollab) (id name : String)
    (input : List (String × PyVal)) : Dispatch :=
  let (outcome, calls) := fixTryBody c name input
  let result : ToolResult :=
    match outcome with
    | Except.ok r => ⟨id, pyStr r, false⟩
    | Except.error e => ⟨id, "Error: " ++ e, true⟩
  ⟨name, input, calls, outcome, result⟩

/-- Result of processing one review response's blocks: the assistant
content, the collected tool results in invocation order, the dispatch
records, and the number of post_review_comment blocks seen. -/
structure ReviewBlocksOut where
  assistant_content : List Block
  tool_results : List ToolResult
  dispatches : List Dispatch
  comments_inc : Nat

/-- The for-block loop of ReviewAgent.review_pr: text blocks are echoed
into the assistant content; each tool_use block is dispatched and counted
when named post_review_comment, regardless of its outcome. -/
def processBlocksReview (c : ReviewCollab) : List Block → ReviewBlocksOut
  | [] => ⟨[], [], [], 0⟩
  | Block.text t :: rest =>
      let o := processBlocksReview c rest
      ⟨Block.text t :: o.assistant_content, o.tool_results, o.dispatches, o.comments_inc⟩
  | Block.tool_use id name input :: rest =>
      let d := handle_tool_call_review c id name input
      let o := processBlocksReview c rest
      ⟨Block.tool_use id name input :: o.assistant_content,
       d.result :: o.tool_results, d :: o.dispatches,
       (if name = "post_review_comment" then 1 else 0) + o.comments_inc⟩

/-- Result of a review run (the dict ReviewAgent.review_pr returns, plus
the final conversation and the ghost dispatch trace). -/
structure ReviewRun where
  messages : List Message
  comments_posted : Nat
  iterations : Nat
  dispatches : List Dispatch

/-- max_iterations of ReviewAgent.review_pr. -/
def reviewMaxIterations : Nat := 20

/-- max_iterations of FixAgent.fix_code. -/
def fixMaxIterations : Nat := 15

/-- The iteration loop of ReviewAgent.review_pr: fuel counts the remaining
range(max_iterations) passes; the loop breaks after a turn without tool
calls, or after appending the results when the stop reason is end_turn. -/
def review_loop (model : List Message → ModelResponse) (c : ReviewCollab) :
    Nat → List Message → Nat → Nat → List Dispatch → ReviewRun
  | 0, msgs, posted, iters, ds => ⟨msgs, posted, iters, ds⟩
  | fuel + 1, msgs, posted, iters, ds =>
      let resp := model msgs
      let o := processBlocksReview c resp.content
      let msgs2 := msgs ++ [Message.assistant o.assistant_content]
      let posted2 := posted + o.comments_inc
      let ds2 := ds ++ o.dispatches
      if o.tool_results.isEmpty then ⟨msgs2, posted2, iters + 1, ds2⟩
      else
        let msgs3 := msgs2 ++ [Message.user (TurnContent.results o.tool_results)]
        if resp.stop_reason = "end_turn" then ⟨msgs3, posted2, iters + 1, ds2⟩
        else review_loop model c fuel msgs3 posted2 (iters + 1) ds2

/-- Embedding of ReviewAgent.review_pr from the start of its agent loop;
the initial user message (diff, PR metadata, instructions) is taken as
given. -/
def review_pr (model : List Message → ModelResponse) (c : ReviewCollab)
    (initial_user_message : String) : ReviewRun :=
  review_loop model c reviewMaxIterations
    [Message.user (TurnContent.text initial_user_message)] 0 0 []

/-- Result of processing one fix response's blocks; committed is true when
some commit_fix block's stringified tool_result lacks the substring
"error". -/
structure FixBlocksOut where
  assistant_content : List Block
  tool_results : List ToolResult
  dispatches : List Dispatch
  committed : Bool

/-- The for-block loop of FixAgent.fix_code: fix_committed is set by the
substring test "error" not in str(tool_result) on commit_fix blocks. -/
def processBlocksFix (c : FixCollab) : List Block → FixBlocksOut
  | [] => ⟨[], [], [], false⟩
  | Block.text t :: rest =>
      let o := processBlocksFix c rest
      ⟨Block.text t :: o.assistant_content, o.tool_results, o.dispatches, o.committed⟩
  | Block.tool_use id name input :: rest =>
      let d := handle_tool_call_fix c id name input
      let o := processBlocksFix c rest
      ⟨Block.tool_use id name input :: o.assistant_content,
       d.result :: o.tool_results, d :: o.dispatches,
       ((decide (name = "commit_fix")) && !(pyInStr "error" (strToolResult d.result))) || o.committed⟩

/-- Result of a fix run: the dict FixAgent.fix_code returns, the final
conversation, the ghost dispatch trace and the replies posted to the
originating review comment after the loop. -/
structure FixRun where
  messages : List Message
  fix_committed : Bool
  iterations : Nat
  dispatches : List Dispatch
  replies : List String

/-- The iteration loop of FixAgent.fix_code. -/
def fix_loop (model : List Message → ModelResponse) (c : FixCollab) :
    Nat → List Message → Bool → Nat → List Dispatch → FixRun
  | 0, msgs, committed, iters, ds => ⟨msgs, committed, iters, ds, []⟩
  | fuel + 1, msgs, committed, iters, ds =>
      let resp := model msgs
      let o := processBlocksFix c resp.content
      let msgs2 := msgs ++ [Message.assistant o.assistant_content]
      let committed2 := committed || o.committed
      let ds2 := ds ++ o.dispatches
      if o.tool_results.isEmpty then ⟨msgs2, committed2, iters + 1, ds2, []⟩
      else
        let msgs3 := msgs2 ++ [Message.user (TurnContent.results o.tool_results)]
        if resp.stop_reason = "end_turn" then ⟨msgs3, committed2, iters + 1, ds2, []⟩
        else fix_loop model c fuel msgs3 committed2 (iters + 1) ds2

/-- The affirmative reply FixAgent.fix_code posts on success. -/
def affirmReply : String := "✅ Fix has been committed to this PR."

/-- The negative reply FixAgent.fix_code posts on failure. -/
def negReply : String := "❌ Could not automatically fix this issue. Manual intervention required."

/-- Embedding of FixAgent.fix_code from the start of its agent loop: run
the loop, then post exactly one reply to the originating comment. -/
def fix_code (model : List Message → ModelResponse) (c : FixCollab)
    (initial_user_message : String) : FixRun :=
  let r := fix_loop model c fixMaxIterations
    [Message.user (TurnContent.text initial_user_message)] false 0 []
  { r with replies := [if r.fix_committed then affirmReply else negReply] }

/-! Codebase search.

Source: services/claude-agent/tools/codebase.py, search_codebase, and
services/indexer/main.py, CodebaseIndexer.search.  The external Qdrant
client is modelled by its two operations as used here; embeddings and
scores are opaque values. -/

/-- A scored point as returned by the Qdrant search API. -/
structure ScoredPoint where
  score : PyVal
  payload : List (String × PyVal)

/-- The external Qdrant client operations used by the search paths; an
error carries str(e) of the raised exception. -/
structure QdrantClient where
  get_collections : Except String (List String)
  search : String → PyVal → PyVal → Except String (List ScoredPoint)

/-- Model of a reachable Qdrant server holding the given collections: listing
succeeds, and searching a missing collection raises the client's not-found
error (HTTP 404 from the server surfaces as an exception in the Python
client). -/
def QdrantClient.ofStore (colls : List String) (points : String → List ScoredPoint) :
    QdrantClient :=
  ⟨Except.ok colls,
   fun name _ _ =>
     if name ∈ colls then Except.ok (points name)
     else Except.error ("Not found: Collection `" ++ name ++ "` doesn\x27t exist!")⟩

/-- The result dict built per hit by search_codebase (payload.get defaults
to None). -/
def searchResultFields (r : ScoredPoint) : List (String × PyVal) :=
  [("file_path", (pyLookup r.payload "file_path").getD PyVal.none),
   ("start_line", (pyLookup r.payload "start_line").getD PyVal.none),
   ("end_line", (pyLookup r.payload "end_line").getD PyVal.none),
   ("chunk_type", (pyLookup r.payload "chunk_type").getD PyVal.none),
   ("name", (pyLookup r.payload "name").getD PyVal.none),
   ("language", (pyLookup r.payload "language").getD PyVal.none),
   ("content", (pyLookup r.payload "content").getD PyVal.none),
   ("score", r.score)]

namespace CodebaseTools

/-- Embedding of search_codebase (tools/codebase.py): the collection
existence check is wrapped in try/except and failures become error dicts;
past it, the query embedding and the search may raise to the caller (where
_handle_tool_call catches them). -/
def search_codebase (q : QdrantClient) (voyage_embed_query : String → Except String PyVal)
    (owner repo query : String) (lim : PyVal) : Except String PyVal :=
  let cname := collection_name owner repo
  match q.get_collections with
  | Except.error e =>
      Except.ok (PyVal.list [PyVal.dict [("error", PyVal.str ("Qdrant connection error: " ++ e))]])
  | Except.ok colls =>
      if cname ∉ colls then
        Except.ok (PyVal.list
          [PyVal.dict [("error", PyVal.str ("Repository " ++ owner ++ "/" ++ repo ++ " not indexed yet"))]])
      else
        match voyage_embed_query query with
        | Except.error e => Except.error e
        | Except.ok emb =>
            match q.search cname emb lim with
            | Except.error e => Except.error e
            | Except.ok results =>
                Except.ok (PyVal.list (results.map (fun r => PyVal.dict (searchResultFields r))))

end CodebaseTools

namespace CodebaseIndexer

/-- Embedding of CodebaseIndexer.search (indexer/main.py): no existence
check and no exception handling; a store error propagates to the caller. -/
def search (q : QdrantClient) (voyage_embed_query : String → Except String PyVal)
    (owner repo query : String) (lim : PyVal) : Except String (List PyVal) :=
  let cname := collection_name owner repo
  match voyage_embed_query query with
  | Except.error e => Except.error e
  | Except.ok emb =>
      match q.search cname emb lim with
      | Except.error e => Except.error e
      | Except.ok results =>
          Except.ok (results.map (fun r => PyVal.dict (("score", r.score) :: r.payload)))

end CodebaseIndexer

/-! Declared tool input schemas.

Source: services/claude-agent/tools/codebase.py and tools/github.py, the
input_schema dicts of SEARCH_CODEBASE_TOOL, GET_FILE_CONTENT_TOOL,
POST_REVIEW_COMMENT_TOOL and COMMIT_FIX_TOOL. -/

/-- Required fields and property types of a declared JSON schema. -/
structure ToolSchema where
  required : List String
  types : List (String × String)

/-- input_schema of SEARCH_CODEBASE_TOOL. -/
def SEARCH_CODEBASE_SCHEMA : ToolSchema :=
  ⟨["query"], [("query", "string"), ("limit", "integer")]⟩

/-- input_schema of GET_FILE_CONTENT_TOOL. -/
def GET_FILE_CONTENT_SCHEMA : ToolSchema :=
  ⟨["file_path"], [("file_path", "string")]⟩

/-- input_schema of POST_REVIEW_COMMENT_TOOL. -/
def POST_REVIEW_COMMENT_SCHEMA : ToolSchema :=
  ⟨["file_path", "line", "body"],
   [("file_path", "string"), ("line", "integer"), ("body", "string"), ("side", "string")]⟩

/-- input_schema of COMMIT_FIX_TOOL. -/
def COMMIT_FIX_SCHEMA : ToolSchema :=
  ⟨["file_path", "new_content", "commit_message"],
   [("file_path", "string"), ("new_content", "string"), ("commit_message", "string")]⟩

/-- JSON-schema type conformance of a value. -/
def typeMatches (t : String) (v : PyVal) : Bool :=
  if t = "string" then (match v with | PyVal.str _ => true | _ => false)
  else if t = "integer" then (match v with | PyVal.int _ => true | _ => false)
  else true

/-- Conformance of an arguments object to a declared schema: every required
field present, every declared property type respected. -/
def conformsTo (input : List (String × PyVal)) (s : ToolSchema) : Bool :=
  s.required.all (fun k => (pyLookup input k).isSome) &&
  input.all (fun kv =>
    match s.types.find? (fun p => p.1 = kv.1) with
    | Option.some p => typeMatches p.2 kv.2
    | Option.none => true)

/-- The schema the review agent's registry declares for each tool name. -/
def reviewSchemaFor (name : String) : Option ToolSchema :=
  if name = "search_codebase" then some SEARCH_CODEBASE_SCHEMA
  else if name = "get_file_content" then some GET_FILE_CONTENT_SCHEMA
  else if name = "post_review_comment" then some POST_REVIEW_COMMENT_SCHEMA
  else Option.none

/-- The schema the fix agent's registry declares for each tool name. -/
def fixSchemaFor (name : String) : Option ToolSchema :=
  if name = "search_codebase" then some SEARCH_CODEBASE_SCHEMA
  else if name = "get_file_content" then some GET_FILE_CONTENT_SCHEMA
  else if name = "commit_fix" then some COMMIT_FIX_SCHEMA
  else Option.none

/-! Derived observations on runs, and concrete scripted models and
collaborators used to exercise them. -/

/-- Whether a block list contains a tool_use block. -/
def hasToolUseB (bs : List Block) : Bool :=
  bs.any (fun b => match b with | Block.tool_use _ _ _ => true | _ => false)

/-- The tool_use ids of a block list, in order. -/
def toolUseIds (bs : List Block) : List String :=
  bs.filterMap (fun b => match b with
    | Block.tool_use id _ _ => Option.some id
    | _ => Option.none)

/-- Whether a try-body outcome is a success (the handler returned rather
than raised). -/
def outcomeOk : Except String PyVal → Bool
  | Except.ok _ => true
  | Except.error _ => false

/-- Number of post_review_comment tool invocations among the dispatches. -/
def post_comment_attempts (ds : List Dispatch) : Nat :=
  (ds.filter (fun d => decide (d.name = "post_review_comment"))).length

/-- Number of review comments actually created: post_review_comment
dispatches whose handler call succeeded. -/
def successful_posts (ds : List Dispatch) : Nat :=
  (ds.filter (fun d => decide (d.name = "post_review_comment") && outcomeOk d.outcome)).length

/-- Whether some commit_fix invocation succeeded (its handler returned). -/
def commit_succeeded (ds : List Dispatch) : Bool :=
  ds.any (fun d => decide (d.name = "commit_fix") && outcomeOk d.outcome)

/-- Whether some commit_fix invocation produced a tool_result whose
stringification lacks the substring "error" (the code's success test). -/
def commit_result_without_error (ds : List Dispatch) : Bool :=
  ds.any (fun d => decide (d.name = "commit_fix") && !(pyInStr "error" (strToolResult d.result)))

/-- The messages list ends with a user turn. -/
def EndsUser (msgs : List Message) : Prop :=
  ∃ c, msgs.getLast? = some (Message.user c)

/-- The conversation invariant: every assistant turn with tool_use blocks
is immediately followed by a user turn of tool results whose ids match the
invocations in order; a final assistant turn has no tool_use blocks. -/
def answered : List Message → Prop
  | [] => True
  | [Message.assistant blocks] => toolUseIds blocks = []
  | Message.assistant blocks :: m :: rest =>
      (toolUseIds blocks = [] ∨
        ∃ trs, m = Message.user (TurnContent.results trs) ∧
          trs.map ToolResult.tool_use_id = toolUseIds blocks) ∧
      answered (m :: rest)
  | _ :: rest => answered rest

/-- A collaborator set whose review handlers all succeed. -/
def demoReviewCollab : ReviewCollab :=
  ⟨fun _ _ => Except.ok (PyVal.str "results"),
   fun _ => Except.ok (PyVal.str "content"),
   fun _ _ _ _ => Except.ok (PyVal.dict [("id", PyVal.int 1)])⟩

/-- A collaborator set whose fix handlers all succeed. -/
def demoFixCollab : FixCollab :=
  ⟨fun _ _ => Except.ok (PyVal.str "results"),
   fun _ => Except.ok (PyVal.str "content"),
   fun _ _ _ => Except.ok (PyVal.dict [("id", PyVal.int 1)])⟩

/-- A scripted model that ends immediately with no tool calls. -/
def endModel : List Message → ModelResponse :=
  fun _ => ⟨[Block.text "All good"], "end_turn"⟩

/-- A scripted model that issues one search tool call on every turn and
never signals end_turn. -/
def alwaysToolModel : List Message → ModelResponse :=
  fun _ => ⟨[Block.tool_use "t" "search_codebase" [("query", PyVal.str "q")]], "tool_use"⟩

/-- Review collaborators whose comment-posting endpoint fails. -/
def postFailCollab : ReviewCollab :=
  ⟨fun _ _ => Except.ok (PyVal.str "results"),
   fun _ => Except.ok (PyVal.str "content"),
   fun _ _ _ _ => Except.error "422 Unprocessable Entity"⟩

/-- A scripted model that posts one review comment and stops. -/
def onePostModel : List Message → ModelResponse :=
  fun msgs =>
    if msgs.length = 1 then
      ⟨[Block.tool_use "t1" "post_review_comment"
          [("file_path", PyVal.str "a.py"), ("line", PyVal.int 12), ("body", PyVal.str "bug")]],
       "end_turn"⟩
    else ⟨[], "end_turn"⟩

/-- Fix collaborators whose commit endpoint succeeds and, as the GitHub
contents API does, echoes the commit message in its response. -/
def commitEchoCollab : FixCollab :=
  ⟨fun _ _ => Except.ok (PyVal.str "results"),
   fun _ => Except.ok (PyVal.str "content"),
   fun _ _ _ =>
     Except.ok (PyVal.dict [("commit", PyVal.dict [("message", PyVal.str "fix error handling")])])⟩

/-- A scripted model that commits one fix and stops. -/
def oneCommitModel : List Message → ModelResponse :=
  fun _ =>
    ⟨[Block.tool_use "t1" "commit_fix"
        [("file_path", PyVal.str "a.py"), ("new_content", PyVal.str "x = 1"),
         ("commit_message", PyVal.str "fix error handling")]],
     "end_turn"⟩

/-- Demo TypeScript source for the tree-sitter chunker: a class with one
indented method. -/
def tsDemoSource : List Char :=
  ("class A \x7b\n  m() \x7b return 123456789; \x7d\n\x7d").toList

/-- The tree the external tree-sitter TypeScript parser produces for
tsDemoSource: byte offsets and points follow the source layout. -/
def tsDemoTree : TSNode :=
  .node "program" 0 39 0 0 2 1
    [.node "class_declaration" 0 39 0 0 2 1
      [.node "class" 0 5 0 0 0 5 [],
       .node "type_identifier" 6 7 0 6 0 7 [],
       .node "class_body" 8 39 0 8 2 1
        [.node "\x7b" 8 9 0 8 0 9 [],
         .node "method_definition" 12 37 1 2 1 27
          [.node "property_identifier" 12 13 1 2 1 3 [],
           .node "formal_parameters" 13 15 1 3 1 5 [],
           .node "statement_block" 16 37 1 6 1 27 []],
         .node "\x7d" 38 39 2 0 2 1 []]]]

/-- The method chunk's recorded content in the demo: the node's exact byte
span, without the two leading indentation spaces of its line. -/
def tsDemoMethodContent : List Char :=
  ("m() \x7b return 123456789; \x7d").toList

/-! Theorems. -/

set_option maxRecDepth 100000

/-- C10 counterexample: the collection-naming transform is not injective —
the distinct repositories (a-b, c) and (a, b-c) receive the same collection
name a_b_c. -/
theorem collection_name_not_injective :
    CodebaseIndexer.collection_name "a-b" "c" = CodebaseIndexer.collection_name "a" "b-c" ∧
      ("a-b", "c") ≠ (("a", "b-c") : String × String) := by
  decide

/-- C10 (amended): the collection-naming transform is a deterministic
function of (owner, repo) applying lowercasing and hyphen-to-underscore
normalization — both copies (indexer and tools) agree and equal the
normalized components joined by an underscore — but it is not injective:
distinct pairs can share a collection name. -/
theorem collection_name_amended (owner repo : String) :
    CodebaseIndexer.collection_name owner repo = CodebaseTools.collection_name owner repo ∧
    CodebaseIndexer.collection_name owner repo =
      normalizeComponent owner ++ "_" ++ normalizeComponent repo := by
  refine ⟨rfl, ?_⟩
  have h : (owner ++ "_" ++ repo).toList = owner.toList ++ '_' :: repo.toList := by
    show (owner ++ "_" ++ repo).data = owner.data ++ '_' :: repo.data
    rw [String.data_append, String.data_append, List.append_assoc]
    rfl
  refine String.ext ?_
  show (pyLower (dashToUnderscore (owner ++ "_" ++ repo))).data = _
  simp only [pyLower, dashToUnderscore, normalizeComponent, h, String.data_append]
  show List.map Char.toLower (List.map _ (owner.toList ++ '_' :: repo.toList)) = _
  simp [List.map_append]

/-- C1: the stored point id is not a process-independent function of
(file_path, start_line, ref): under two different process hash keys (CPython
randomizes the str-hash key per process unless PYTHONHASHSEED pins it), the
same unchanged chunk of the same file at the same ref receives different
ids, so a second indexing run in a fresh process upserts a new point instead
of overwriting the first. -/
theorem index_file_point_ids_process_dependent :
    index_file_point_ids 0 0 "a.py" "main"
        [⟨"def f(): pass".toList, "a.py", 1, 1, "function", some "f", "python"⟩] ≠
      index_file_point_ids 0 1 "a.py" "main"
        [⟨"def f(): pass".toList, "a.py", 1, 1, "function", some "f", "python"⟩] := by
  decide

/-- C8 counterexample: CodebaseIndexer.search against a store with no
collections does not return a reported error value — the store's not-found
exception propagates to the caller. -/
theorem indexer_search_missing_collection_raises :
    CodebaseIndexer.search (QdrantClient.ofStore [] (fun _ => []))
        (fun _ => Except.ok (PyVal.list [])) "octo" "hello-world" "auth code" (PyVal.int 10) =
      Except.error "Not found: Collection `octo_hello_world` doesn\x27t exist!" := by
  rfl

/-- C8 (amended): for a repository whose collection does not exist, the
agent-facing tool search_codebase returns the not-yet-indexed error value
without raising, while CodebaseIndexer.search propagates the store's
not-found exception to its caller. -/
theorem search_missing_collection_amended
    (colls : List String) (points : String → List ScoredPoint)
    (voyage : String → Except String PyVal) (owner repo query : String) (lim : PyVal)
    (h : CodebaseIndexer.collection_name owner repo ∉ colls) :
    CodebaseTools.search_codebase (QdrantClient.ofStore colls points) voyage owner repo query lim =
      Except.ok (PyVal.list [PyVal.dict
        [("error", PyVal.str ("Repository " ++ owner ++ "/" ++ repo ++ " not indexed yet"))]]) ∧
    (∀ emb, voyage query = Except.ok emb →
      CodebaseIndexer.search (QdrantClient.ofStore colls points) voyage owner repo query lim =
        Except.error ("Not found: Collection `" ++ CodebaseIndexer.collection_name owner repo ++
          "` doesn\x27t exist!")) := by
  have h2 : CodebaseTools.collection_name owner repo ∉ colls := h
  constructor
  · simp only [CodebaseTools.search_codebase, QdrantClient.ofStore]
    rw [if_pos h2]
  · intro emb hemb
    simp only [CodebaseIndexer.search, QdrantClient.ofStore, hemb]
    rw [if_neg h]

/-- C8 witness: the amended statement at a concrete empty store. -/
theorem search_missing_collection_amended_w :
    CodebaseTools.search_codebase (QdrantClient.ofStore [] (fun _ => []))
        (fun _ => Except.ok (PyVal.list [])) "octo" "hello-world" "auth code" (PyVal.int 10) =
      Except.ok (PyVal.list [PyVal.dict
        [("error", PyVal.str ("Repository " ++ "octo" ++ "/" ++ "hello-world" ++ " not indexed yet"))]]) :=
  (search_missing_collection_amended [] (fun _ => []) (fun _ => Except.ok (PyVal.list []))
    "octo" "hello-world" "auth code" (PyVal.int 10) (by decide)).1

/-- C6 counterexample: an arguments object whose line field is a string
violates the declared schema of post_review_comment, yet the dispatcher
enters the handler with exactly those unvalidated arguments. -/
theorem schema_validation_counterexample :
    conformsTo
        [("file_path", PyVal.str "a.py"), ("line", PyVal.str "12"), ("body", PyVal.str "Fix this")]
        POST_REVIEW_COMMENT_SCHEMA = false ∧
    (handle_tool_call_review demoReviewCollab "toolu_1" "post_review_comment"
        [("file_path", PyVal.str "a.py"), ("line", PyVal.str "12"), ("body", PyVal.str "Fix this")]).calls =
      [HCall.post_comment_call (PyVal.str "a.py") (PyVal.str "12") (PyVal.str "Fix this")
        (PyVal.str "RIGHT")] :=
  ⟨rfl, rfl⟩

/-- C6 (amended): whenever a handler is entered, every field the named
tool's declared schema marks required was present in the arguments
(extraction by key precedes the handler call and a missing key raises
first), but no type validation occurs before the handler is invoked. -/
theorem dispatch_required_fields_amended (c : ReviewCollab) (cf : FixCollab)
    (name : String) (input : List (String × PyVal)) :
    ((reviewTryBody c name input).2 ≠ [] →
      ∀ s, reviewSchemaFor name = some s → ∀ k ∈ s.required, (pyLookup input k).isSome = true) ∧
    ((fixTryBody cf name input).2 ≠ [] →
      ∀ s, fixSchemaFor name = some s → ∀ k ∈ s.required, (pyLookup input k).isSome = true) := by
  constructor
  · intro hne s hs k hk
    by_cases h1 : name = "search_codebase"
    · subst h1
      simp [reviewSchemaFor] at hs
      subst hs
      simp [SEARCH_CODEBASE_SCHEMA] at hk
      subst hk
      simp only [reviewTryBody, if_pos rfl] at hne
      cases hq : pyLookup input "query" with
      | none => rw [hq] at hne; simp at hne
      | some q => rfl
    by_cases h2 : name = "get_file_content"
    · subst h2
      simp [reviewSchemaFor] at hs
      subst hs
      simp [GET_FILE_CONTENT_SCHEMA] at hk
      subst hk
      simp [reviewTryBody] at hne
      cases hq : pyLookup input "file_path" with
      | none => rw [hq] at hne; simp at hne
      | some v => rfl
    by_cases h3 : name = "post_review_comment"
    · subst h3
      simp [reviewSchemaFor] at hs
      subst hs
      simp [reviewTryBody] at hne
      cases hfp : pyLookup input "file_path" with
      | none => rw [hfp] at hne; simp at hne
      | some fp =>
        rw [hfp] at hne
        cases hln : pyLookup input "line" with
        | none => rw [hln] at hne; simp at hne
        | some ln =>
          rw [hln] at hne
          cases hbd : pyLookup input "body" with
          | none => rw [hbd] at hne; simp at hne
          | some bd =>
            simp [POST_REVIEW_COMMENT_SCHEMA] at hk
            rcases hk with hk | hk | hk <;> subst hk
            · rw [hfp]; rfl
            · rw [hln]; rfl
            · rw [hbd]; rfl
    · simp [reviewSchemaFor, h1, h2, h3] at hs
  · intro hne s hs k hk
    by_cases h1 : name = "search_codebase"
    · subst h1
      simp [fixSchemaFor] at hs
      subst hs
      simp [SEARCH_CODEBASE_SCHEMA] at hk
      subst hk
      simp only [fixTryBody, if_pos rfl] at hne
      cases hq : pyLookup input "query" with
      | none => rw [hq] at hne; simp at hne
      | some q => rfl
    by_cases h2 : name = "get_file_content"
    · subst h2
      simp [fixSchemaFor] at hs
      subst hs
      simp [GET_FILE_CONTENT_SCHEMA] at hk
      subst hk
      simp [fixTryBody] at hne
      cases hq : pyLookup input "file_path" with
      | none => rw [hq] at hne; simp at hne
      | some v => rfl
    by_cases h3 : name = "commit_fix"
    · subst h3
      simp [fixSchemaFor] at hs
      subst hs
      simp [fixTryBody] at hne
      cases hfp : pyLookup input "file_path" with
      | none => rw [hfp] at hne; simp at hne
      | some fp =>
        rw [hfp] at hne
        cases hnc : pyLookup input "new_content" with
        | none => rw [hnc] at hne; simp at hne
        | some nc =>
          rw [hnc] at hne
          cases hcm : pyLookup input "commit_message" with
          | none => rw [hcm] at hne; simp at hne
          | some cm =>
            simp [COMMIT_FIX_SCHEMA] at hk
            rcases hk with hk | hk | hk <;> subst hk
            · rw [hfp]; rfl
            · rw [hnc]; rfl
            · rw [hcm]; rfl
    · simp [fixSchemaFor, h1, h2, h3] at hs

/-- C6 witness: the amended statement applied to a conforming search call. -/
theorem dispatch_required_fields_amended_w :
    (pyLookup [("query", PyVal.str "q")] "query").isSome = true :=
  (dispatch_required_fields_amended demoReviewCollab demoFixCollab "search_codebase"
      [("query", PyVal.str "q")]).1 (List.cons_ne_nil _ _) SEARCH_CODEBASE_SCHEMA rfl "query"
    (by decide)

/-- C5: dispatch is total and converts failures to data — an unknown tool
name produces a result envelope whose content is the stringified
error-tagged dict (and no handler is entered); any exception raised inside
the try body (argument extraction or the collaborator call) is caught and
becomes an is_error-marked tool_result carrying Error: str(e); in every
case the result carries the invocation's tool_use id. -/
theorem dispatch_error_envelope (c : ReviewCollab) (cf : FixCollab) (id name : String)
    (input : List (String × PyVal)) :
    ((handle_tool_call_review c id name input).result.tool_use_id = id ∧
      (handle_tool_call_fix cf id name input).result.tool_use_id = id) ∧
    (name ∉ ["search_codebase", "get_file_content", "post_review_comment"] →
      handle_tool_call_review c id name input =
        ⟨name, input, [],
         Except.ok (PyVal.dict [("error", PyVal.str ("Unknown tool: " ++ name))]),
         ⟨id, pyStr (PyVal.dict [("error", PyVal.str ("Unknown tool: " ++ name))]), false⟩⟩) ∧
    (name ∉ ["search_codebase", "get_file_content", "commit_fix"] →
      handle_tool_call_fix cf id name input =
        ⟨name, input, [],
         Except.ok (PyVal.dict [("error", PyVal.str ("Unknown tool: " ++ name))]),
         ⟨id, pyStr (PyVal.dict [("error", PyVal.str ("Unknown tool: " ++ name))]), false⟩⟩) ∧
    (∀ e, (reviewTryBody c name input).1 = Except.error e →
      (handle_tool_call_review c id name input).result = ⟨id, "Error: " ++ e, true⟩) ∧
    (∀ e, (fixTryBody cf name input).1 = Except.error e →
      (handle_tool_call_fix cf id name input).result = ⟨id, "Error: " ++ e, true⟩) := by
  refine ⟨⟨?_, ?_⟩, ?_, ?_, ?_, ?_⟩
  · rcases h : reviewTryBody c name input with ⟨o, calls⟩
    simp only [handle_tool_call_review, h]
    cases o <;> rfl
  · rcases h : fixTryBody cf name input with ⟨o, calls⟩
    simp only [handle_tool_call_fix, h]
    cases o <;> rfl
  · intro hn
    simp only [List.mem_cons, List.mem_singleton, not_or] at hn
    obtain ⟨hn1, hn2, hn3⟩ := hn
    have hb : reviewTryBody c name input =
        (Except.ok (PyVal.dict [("error", PyVal.str ("Unknown tool: " ++ name))]), []) := by
      simp only [reviewTryBody, if_neg hn1, if_neg hn2, if_neg hn3.1]
    simp only [handle_tool_call_review, hb]
  · intro hn
    simp only [List.mem_cons, List.mem_singleton, not_or] at hn
    obtain ⟨hn1, hn2, hn3⟩ := hn
    have hb : fixTryBody cf name input =
        (Except.ok (PyVal.dict [("error", PyVal.str ("Unknown tool: " ++ name))]), []) := by
      simp only [fixTryBody, if_neg hn1, if_neg hn2, if_neg hn3.1]
    simp only [handle_tool_call_fix, hb]
  · intro e he
    rcases h : reviewTryBody c name input with ⟨o, calls⟩
    rw [h] at he
    simp only at he
    subst he
    simp only [handle_tool_call_review, h]
  · intro e he
    rcases h : fixTryBody cf name input with ⟨o, calls⟩
    rw [h] at he
    simp only at he
    subst he
    simp only [handle_tool_call_fix, h]

/-- C5 witness: the unknown tool bash yields the stringified error dict, a
missing-argument KeyError on search_codebase yields an is_error result. -/
theorem dispatch_error_envelope_w :
    (handle_tool_call_review demoReviewCollab "t9" "bash" [] =
      ⟨"bash", [], [],
       Except.ok (PyVal.dict [("error", PyVal.str ("Unknown tool: " ++ "bash"))]),
       ⟨"t9", pyStr (PyVal.dict [("error", PyVal.str ("Unknown tool: " ++ "bash"))]), false⟩⟩) ∧
    (handle_tool_call_review demoReviewCollab "t9" "search_codebase" []).result =
      ⟨"t9", "Error: " ++ keyErrorMsg "query", true⟩ := by
  constructor
  · exact (dispatch_error_envelope demoReviewCollab demoFixCollab "t9" "bash" []).2.1 (by decide)
  · exact (dispatch_error_envelope demoReviewCollab demoFixCollab "t9" "search_codebase" []).2.2.2.1
      (keyErrorMsg "query") rfl

/-! Helper lemmas about block processing and the loops. -/

theorem handle_review_name (c : ReviewCollab) (id name : String) (input : List (String × PyVal)) :
    (handle_tool_call_review c id name input).name = name := by
  rcases h : reviewTryBody c name input with ⟨o, calls⟩
  simp only [handle_tool_call_review, h]

theorem handle_fix_name (c : FixCollab) (id name : String) (input : List (String × PyVal)) :
    (handle_tool_call_fix c id name input).name = name := by
  rcases h : fixTryBody c name input with ⟨o, calls⟩
  simp only [handle_tool_call_fix, h]

theorem handle_review_id (c : ReviewCollab) (id name : String) (input : List (String × PyVal)) :
    (handle_tool_call_review c id name input).result.tool_use_id = id := by
  rcases h : reviewTryBody c name input with ⟨o, calls⟩
  simp only [handle_tool_call_review, h]
  cases o <;> rfl

theorem handle_fix_id (c : FixCollab) (id name : String) (input : List (String × PyVal)) :
    (handle_tool_call_fix c id name input).result.tool_use_id = id := by
  rcases h : fixTryBody c name input with ⟨o, calls⟩
  simp only [handle_tool_call_fix, h]
  cases o <;> rfl

theorem processBlocksReview_content (c : ReviewCollab) (bs : List Block) :
    (processBlocksReview c bs).assistant_content = bs := by
  induction bs with
  | nil => rfl
  | cons b rest ih =>
    cases b with
    | text t => simp only [processBlocksReview]; rw [ih]
    | tool_use id name input => simp only [processBlocksReview]; rw [ih]

theorem processBlocksReview_ids (c : ReviewCollab) (bs : List Block) :
    (processBlocksReview c bs).tool_results.map ToolResult.tool_use_id = toolUseIds bs := by
  induction bs with
  | nil => rfl
  | cons b rest ih =>
    cases b with
    | text t => simp only [processBlocksReview, toolUseIds, List.filterMap_cons]; exact ih
    | tool_use id name input =>
      simp only [processBlocksReview, toolUseIds, List.filterMap_cons, List.map_cons]
      rw [handle_review_id]
      exact congrArg (id :: ·) ih

theorem processBlocksReview_empty (c : ReviewCollab) (bs : List Block) :
    (processBlocksReview c bs).tool_results.isEmpty = !hasToolUseB bs := by
  induction bs with
  | nil => rfl
  | cons b rest ih =>
    cases b with
    | text t => simp only [processBlocksReview, hasToolUseB, List.any_cons] at ih ⊢; exact ih
    | tool_use id name input => simp [processBlocksReview, hasToolUseB]

theorem processBlocksFix_content (c : FixCollab) (bs : List Block) :
    (processBlocksFix c bs).assistant_content = bs := by
  induction bs with
  | nil => rfl
  | cons b rest ih =>
    cases b with
    | text t => simp only [processBlocksFix]; rw [ih]
    | tool_use id name input => simp only [processBlocksFix]; rw [ih]

theorem processBlocksFix_ids (c : FixCollab) (bs : List Block) :
    (processBlocksFix c bs).tool_results.map ToolResult.tool_use_id = toolUseIds bs := by
  induction bs with
  | nil => rfl
  | cons b rest ih =>
    cases b with
    | text t => simp only [processBlocksFix, toolUseIds, List.filterMap_cons]; exact ih
    | tool_use id name input =>
      simp only [processBlocksFix, toolUseIds, List.filterMap_cons, List.map_cons]
      rw [handle_fix_id]
      exact congrArg (id :: ·) ih

theorem processBlocksFix_empty (c : FixCollab) (bs : List Block) :
    (processBlocksFix c bs).tool_results.isEmpty = !hasToolUseB bs := by
  induction bs with
  | nil => rfl
  | cons b rest ih =>
    cases b with
    | text t => simp only [processBlocksFix, hasToolUseB, List.any_cons] at ih ⊢; exact ih
    | tool_use id name input => simp [processBlocksFix, hasToolUseB]

theorem post_comment_attempts_append (a b : List Dispatch) :
    post_comment_attempts (a ++ b) = post_comment_attempts a + post_comment_attempts b := by
  simp [post_comment_attempts, List.filter_append]

theorem processBlocksReview_inc (c : ReviewCollab) (bs : List Block) :
    (processBlocksReview c bs).comments_inc =
      post_comment_attempts (processBlocksReview c bs).dispatches := by
  induction bs with
  | nil => rfl
  | cons b rest ih =>
    cases b with
    | text t => simp only [processBlocksReview]; exact ih
    | tool_use id name input =>
      simp only [processBlocksReview, post_comment_attempts, List.filter_cons] at ih ⊢
      rw [handle_review_name]
      by_cases hn : name = "post_review_comment"
      · subst hn
        simp [ih]
        omega
      · simp [hn, ih]

theorem commit_result_without_error_append (a b : List Dispatch) :
    commit_result_without_error (a ++ b) =
      (commit_result_without_error a || commit_result_without_error b) := by
  simp [commit_result_without_error, List.any_append]

theorem processBlocksFix_committed (c : FixCollab) (bs : List Block) :
    (processBlocksFix c bs).committed =
      commit_result_without_error (processBlocksFix c bs).dispatches := by
  induction bs with
  | nil => rfl
  | cons b rest ih =>
    cases b with
    | text t => simp only [processBlocksFix]; exact ih
    | tool_use id name input =>
      simp only [processBlocksFix, commit_result_without_error, List.any_cons] at ih ⊢
      rw [handle_fix_name, ih]

theorem review_loop_one (model : List Message → ModelResponse) (c : ReviewCollab)
    (fuel : Nat) (msgs : List Message) (posted iters : Nat) (ds : List Dispatch)
    (hf : fuel ≠ 0) (h : hasToolUseB (model msgs).content = false) :
    (review_loop model c fuel msgs posted iters ds).iterations = iters + 1 := by
  cases fuel with
  | zero => exact absurd rfl hf
  | succ n =>
    have he : (processBlocksReview c (model msgs).content).tool_results.isEmpty = true := by
      rw [processBlocksReview_empty, h]
      rfl
    simp only [review_loop, he, if_pos]

theorem fix_loop_one (model : List Message → ModelResponse) (c : FixCollab)
    (fuel : Nat) (msgs : List Message) (comm : Bool) (iters : Nat) (ds : List Dispatch)
    (hf : fuel ≠ 0) (h : hasToolUseB (model msgs).content = false) :
    (fix_loop model c fuel msgs comm iters ds).iterations = iters + 1 := by
  cases fuel with
  | zero => exact absurd rfl hf
  | succ n =>
    have he : (processBlocksFix c (model msgs).content).tool_results.isEmpty = true := by
      rw [processBlocksFix_empty, h]
      rfl
    simp only [fix_loop, he, if_pos]

theorem review_loop_full (model : List Message → ModelResponse) (c : ReviewCollab)
    (H : ∀ msgs, hasToolUseB (model msgs).content = true ∧ (model msgs).stop_reason ≠ "end_turn") :
    ∀ (fuel : Nat) (msgs : List Message) (posted iters : Nat) (ds : List Dispatch),
      (review_loop model c fuel msgs posted iters ds).iterations = iters + fuel := by
  intro fuel
  induction fuel with
  | zero => intro msgs posted iters ds; rfl
  | succ n ih =>
    intro msgs posted iters ds
    have he : (processBlocksReview c (model msgs).content).tool_results.isEmpty = false := by
      rw [processBlocksReview_empty, (H msgs).1]
      rfl
    simp only [review_loop, he, Bool.false_eq_true, if_false, if_neg (H msgs).2, ih]
    omega

theorem fix_loop_full (model : List Message → ModelResponse) (c : FixCollab)
    (H : ∀ msgs, hasToolUseB (model msgs).content = true ∧ (model msgs).stop_reason ≠ "end_turn") :
    ∀ (fuel : Nat) (msgs : List Message) (comm : Bool) (iters : Nat) (ds : List Dispatch),
      (fix_loop model c fuel msgs comm iters ds).iterations = iters + fuel := by
  intro fuel
  induction fuel with
  | zero => intro msgs comm iters ds; rfl
  | succ n ih =>
    intro msgs comm iters ds
    have he : (processBlocksFix c (model msgs).content).tool_results.isEmpty = false := by
      rw [processBlocksFix_empty, (H msgs).1]
      rfl
    simp only [fix_loop, he, Bool.false_eq_true, if_false, if_neg (H msgs).2, ih]
    omega

/-- C4: loop termination — a first model turn without tool_use blocks ends
either loop after exactly one cycle; a model that always issues tool calls
and never signals end_turn drives either loop to exactly its configured
maximum (20 review cycles, 15 fix cycles, review strictly higher). -/
theorem agent_loop_termination :
    (reviewMaxIterations = 20 ∧ fixMaxIterations = 15 ∧ fixMaxIterations < reviewMaxIterations) ∧
    (∀ (model : List Message → ModelResponse) (c : ReviewCollab) (cf : FixCollab) (init : String),
      hasToolUseB (model [Message.user (TurnContent.text init)]).content = false →
        (review_pr model c init).iterations = 1 ∧ (fix_code model cf init).iterations = 1) ∧
    (∀ (model : List Message → ModelResponse) (c : ReviewCollab) (cf : FixCollab) (init : String),
      (∀ msgs, hasToolUseB (model msgs).content = true ∧ (model msgs).stop_reason ≠ "end_turn") →
        (review_pr model c init).iterations = reviewMaxIterations ∧
        (fix_code model cf init).iterations = fixMaxIterations) := by
  refine ⟨⟨rfl, rfl, by decide⟩, ?_, ?_⟩
  · intro model c cf init h
    constructor
    · exact review_loop_one model c reviewMaxIterations _ 0 0 [] (by decide) h
    · show (fix_loop model cf fixMaxIterations
        [Message.user (TurnContent.text init)] false 0 []).iterations = 1
      exact fix_loop_one model cf fixMaxIterations _ false 0 [] (by decide) h
  · intro model c cf init H
    constructor
    · exact review_loop_full model c H reviewMaxIterations _ 0 0 []
    · show (fix_loop model cf fixMaxIterations
        [Message.user (TurnContent.text init)] false 0 []).iterations = fixMaxIterations
      exact fix_loop_full model cf H fixMaxIterations _ false 0 []

/-- C4 witness: the scripted no-tool model ends both loops in one cycle;
the scripted always-tool model reaches both caps. -/
theorem agent_loop_termination_w :
    ((review_pr endModel demoReviewCollab "go").iterations = 1 ∧
      (fix_code endModel demoFixCollab "go").iterations = 1) ∧
    ((review_pr alwaysToolModel demoReviewCollab "go").iterations = reviewMaxIterations ∧
      (fix_code alwaysToolModel demoFixCollab "go").iterations = fixMaxIterations) := by
  constructor
  · exact agent_loop_termination.2.1 endModel demoReviewCollab demoFixCollab "go" rfl
  · exact agent_loop_termination.2.2 alwaysToolModel demoReviewCollab demoFixCollab "go"
      (fun msgs => ⟨rfl, (by decide : ("tool_use" : String) ≠ "end_turn")⟩)

theorem review_loop_posted (model : List Message → ModelResponse) (c : ReviewCollab) :
    ∀ (fuel : Nat) (msgs : List Message) (posted iters : Nat) (ds : List Dispatch),
      posted = post_comment_attempts ds →
      (review_loop model c fuel msgs posted iters ds).comments_posted =
        post_comment_attempts (review_loop model c fuel msgs posted iters ds).dispatches := by
  intro fuel
  induction fuel with
  | zero => intro msgs posted iters ds h; exact h
  | succ n ih =>
    intro msgs posted iters ds h
    have hnew : posted + (processBlocksReview c (model msgs).content).comments_inc =
        post_comment_attempts (ds ++ (processBlocksReview c (model msgs).content).dispatches) := by
      rw [post_comment_attempts_append, ← h, ← processBlocksReview_inc]
    simp only [review_loop]
    by_cases he : (processBlocksReview c (model msgs).content).tool_results.isEmpty
    · simp only [he, if_pos]
      exact hnew
    · simp only [he, Bool.false_eq_true, if_false]
      by_cases hs : (model msgs).stop_reason = "end_turn"
      · simp only [hs, if_pos]
        exact hnew
      · simp only [if_neg hs]
        exact ih _ _ _ _ hnew

/-- C9 (amended): comments_posted counts the post_review_comment tool
invocations made during the loop — attempts, successful or not — rather
than the successfully created comments. -/
theorem comments_posted_counts_attempts (model : List Message → ModelResponse)
    (c : ReviewCollab) (init : String) :
    (review_pr model c init).comments_posted =
      post_comment_attempts (review_pr model c init).dispatches :=
  review_loop_posted model c reviewMaxIterations _ 0 0 [] rfl

/-- C9 counterexample: a run whose single post_review_comment call fails at
the collaborator still reports comments_posted = 1 while the number of
comments actually created is 0. -/
theorem comments_posted_counterexample :
    (review_pr onePostModel postFailCollab "go").comments_posted = 1 ∧
    successful_posts (review_pr onePostModel postFailCollab "go").dispatches = 0 :=
  ⟨rfl, rfl⟩

theorem fix_loop_committed (model : List Message → ModelResponse) (c : FixCollab) :
    ∀ (fuel : Nat) (msgs : List Message) (comm : Bool) (iters : Nat) (ds : List Dispatch),
      comm = commit_result_without_error ds →
      (fix_loop model c fuel msgs comm iters ds).fix_committed =
        commit_result_without_error (fix_loop model c fuel msgs comm iters ds).dispatches := by
  intro fuel
  induction fuel with
  | zero => intro msgs comm iters ds h; exact h
  | succ n ih =>
    intro msgs comm iters ds h
    have hnew : (comm || (processBlocksFix c (model msgs).content).committed) =
        commit_result_without_error (ds ++ (processBlocksFix c (model msgs).content).dispatches) := by
      rw [commit_result_without_error_append, ← h, ← processBlocksFix_committed]
    simp only [fix_loop]
    by_cases he : (processBlocksFix c (model msgs).content).tool_results.isEmpty
    · simp only [he, if_pos]
      exact hnew
    · simp only [he, Bool.false_eq_true, if_false]
      by_cases hs : (model msgs).stop_reason = "end_turn"
      · simp only [hs, if_pos]
        exact hnew
      · simp only [if_neg hs]
        exact ih _ _ _ _ hnew

/-- C3 (amended): fix_committed is true exactly when some commit_fix
invocation produced a tool_result whose stringification lacks the substring
"error" (the code's substring test — every failed invocation is excluded,
but so is a successful one whose result mentions "error"); exactly one
outcome reply is posted, affirmative precisely when fix_committed is
true. -/
theorem fix_committed_amended (model : List Message → ModelResponse) (c : FixCollab)
    (init : String) :
    (fix_code model c init).fix_committed =
      commit_result_without_error (fix_code model c init).dispatches ∧
    (fix_code model c init).replies =
      [if (fix_code model c init).fix_committed then affirmReply else negReply] := by
  constructor
  · show (fix_loop model c fixMaxIterations
        [Message.user (TurnContent.text init)] false 0 []).fix_committed = _
    exact fix_loop_committed model c fixMaxIterations _ false 0 [] rfl
  · rfl

/-- C3 counterexample: a commit_fix invocation that succeeds — the GitHub
response echoes the commit message "fix error handling" — is not recorded:
fix_committed stays false and the negative reply is posted. -/
theorem fix_committed_counterexample :
    commit_succeeded (fix_code oneCommitModel commitEchoCollab "go").dispatches = true ∧
    (fix_code oneCommitModel commitEchoCollab "go").fix_committed = false ∧
    (fix_code oneCommitModel commitEchoCollab "go").replies = [negReply] :=
  ⟨rfl, rfl, rfl⟩

theorem answered_append : ∀ (xs ys : List Message), answered xs → EndsUser xs → answered ys →
    answered (xs ++ ys) := by
  intro xs
  induction xs with
  | nil =>
    intro ys _ hu _
    obtain ⟨c, hc⟩ := hu
    simp [List.getLast?] at hc
  | cons x xs ih =>
    intro ys hans hu hys
    cases xs with
    | nil =>
      obtain ⟨c, hc⟩ := hu
      have hx : x = Message.user c := by simpa using hc
      subst hx
      exact hys
    | cons x2 xs2 =>
      have hu2 : EndsUser (x2 :: xs2) := by
        obtain ⟨c, hc⟩ := hu
        exact ⟨c, by rwa [List.getLast?_cons_cons] at hc⟩
      cases x with
      | user cu => exact ih ys hans hu2 hys
      | assistant blocks =>
        have hans2 : (toolUseIds blocks = [] ∨
            ∃ trs, x2 = Message.user (TurnContent.results trs) ∧
              trs.map ToolResult.tool_use_id = toolUseIds blocks) ∧
            answered (x2 :: xs2) := hans
        exact ⟨hans2.1, ih ys hans2.2 hu2 hys⟩

theorem review_loop_answered (model : List Message → ModelResponse) (c : ReviewCollab) :
    ∀ (fuel : Nat) (msgs : List Message) (posted iters : Nat) (ds : List Dispatch),
      answered msgs → EndsUser msgs →
      answered (review_loop model c fuel msgs posted iters ds).messages := by
  intro fuel
  induction fuel with
  | zero => intro msgs posted iters ds h _; exact h
  | succ n ih =>
    intro msgs posted iters ds hans hu
    have hids : (processBlocksReview c (model msgs).content).tool_results.map
        ToolResult.tool_use_id =
        toolUseIds (processBlocksReview c (model msgs).content).assistant_content := by
      rw [processBlocksReview_content]
      exact processBlocksReview_ids c (model msgs).content
    simp only [review_loop]
    by_cases he : (processBlocksReview c (model msgs).content).tool_results.isEmpty
    · simp only [he, if_pos]
      apply answered_append _ _ hans hu
      show toolUseIds _ = []
      rw [← hids, List.isEmpty_iff.mp he]
      rfl
    · have hpair : answered
          [Message.assistant (processBlocksReview c (model msgs).content).assistant_content,
           Message.user (TurnContent.results (processBlocksReview c (model msgs).content).tool_results)] :=
        ⟨Or.inr ⟨_, rfl, hids⟩, trivial⟩
      simp only [he, Bool.false_eq_true, if_false]
      by_cases hs : (model msgs).stop_reason = "end_turn"
      · simp only [hs, if_pos]
        rw [List.append_assoc]
        exact answered_append _ _ hans hu hpair
      · simp only [if_neg hs]
        apply ih
        · rw [List.append_assoc]
          exact answered_append _ _ hans hu hpair
        · exact ⟨TurnContent.results (processBlocksReview c (model msgs).content).tool_results,
            by simp⟩

theorem fix_loop_answered (model : List Message → ModelResponse) (c : FixCollab) :
    ∀ (fuel : Nat) (msgs : List Message) (comm : Bool) (iters : Nat) (ds : List Dispatch),
      answered msgs → EndsUser msgs →
      answered (fix_loop model c fuel msgs comm iters ds).messages := by
  intro fuel
  induction fuel with
  | zero => intro msgs comm iters ds h _; exact h
  | succ n ih =>
    intro msgs comm iters ds hans hu
    have hids : (processBlocksFix c (model msgs).content).tool_results.map
        ToolResult.tool_use_id =
        toolUseIds (processBlocksFix c (model msgs).content).assistant_content := by
      rw [processBlocksFix_content]
      exact processBlocksFix_ids c (model msgs).content
    simp only [fix_loop]
    by_cases he : (processBlocksFix c (model msgs).content).tool_results.isEmpty
    · simp only [he, if_pos]
      apply answered_append _ _ hans hu
      show toolUseIds _ = []
      rw [← hids, List.isEmpty_iff.mp he]
      rfl
    · have hpair : answered
          [Message.assistant (processBlocksFix c (model msgs).content).assistant_content,
           Message.user (TurnContent.results (processBlocksFix c (model msgs).content).tool_results)] :=
        ⟨Or.inr ⟨_, rfl, hids⟩, trivial⟩
      simp only [he, Bool.false_eq_true, if_false]
      by_cases hs : (model msgs).stop_reason = "end_turn"
      · simp only [hs, if_pos]
        rw [List.append_assoc]
        exact answered_append _ _ hans hu hpair
      · simp only [if_neg hs]
        apply ih
        · rw [List.append_assoc]
          exact answered_append _ _ hans hu hpair
        · exact ⟨TurnContent.results (processBlocksFix c (model msgs).content).tool_results,
            by simp⟩

/-! Lemmas on line splitting and joining. -/

theorem splitNl_ne_nil (s : List Char) : splitNl s ≠ [] := by
  cases s with
  | nil => simp [splitNl]
  | cons c rest =>
    simp only [splitNl]
    by_cases h : c = '\n'
    · simp [h]
    · simp only [if_neg h]
      cases splitNl rest <;> simp

theorem joinNl_cons_head (c : Char) (l : List Char) (ls : List (List Char)) :
    joinNl ((c :: l) :: ls) = c :: joinNl (l :: ls) := by
  cases ls <;> simp [joinNl]

theorem joinNl_splitNl (s : List Char) : joinNl (splitNl s) = s := by
  induction s with
  | nil => rfl
  | cons c rest ih =>
    by_cases h : c = '\n'
    · subst h
      simp only [splitNl, if_pos rfl]
      obtain ⟨l, ls, hl⟩ : ∃ l ls, splitNl rest = l :: ls := by
        cases hr : splitNl rest with
        | nil => exact absurd hr (splitNl_ne_nil rest)
        | cons l ls => exact ⟨l, ls, rfl⟩
      rw [hl]
      show [] ++ '\n' :: joinNl (l :: ls) = '\n' :: rest
      rw [List.nil_append, ← hl, ih]
    · simp only [splitNl, if_neg h]
      cases hr : splitNl rest with
      | nil => exact absurd hr (splitNl_ne_nil rest)
      | cons l ls =>
        rw [joinNl_cons_head, ← hr, ih]

theorem length_splitNl (s : List Char) : (splitNl s).length = s.count '\n' + 1 := by
  induction s with
  | nil => rfl
  | cons c rest ih =>
    by_cases h : c = '\n'
    · subst h
      simp only [splitNl, if_pos rfl, List.length_cons, List.count_cons]
      simp [ih]
    · simp only [splitNl, if_neg h]
      cases hr : splitNl rest with
      | nil => exact absurd hr (splitNl_ne_nil rest)
      | cons l ls =>
        simp only [List.length_cons, List.count_cons]
        have : (l :: ls).length = rest.count '\n' + 1 := by rw [← hr]; exact ih
        simp only [List.length_cons] at this
        simp [h, this]

theorem reconstruct_whole (content : List Char) :
    reconstructL (splitNl content) 1 (splitNl content).length = content := by
  unfold reconstructL
  have h1 : (splitNl content).length + 1 - 1 = (splitNl content).length := by omega
  rw [h1]
  show joinNl (((splitNl content).drop 0).take (splitNl content).length) = content
  rw [List.drop_zero, List.take_length, joinNl_splitNl]

theorem one_le_length_splitNl (content : List Char) : 1 ≤ (splitNl content).length := by
  cases hr : splitNl content with
  | nil => exact absurd hr (splitNl_ne_nil content)
  | cons l ls => simp

/-! The markdown chunker keeps exact line ranges: loop invariant and main
lemma. -/

theorem mdKeep_ne_nil {cur : List (List Char)} (h : mdKeep cur = true) : cur ≠ [] := by
  intro hc
  subst hc
  simp [mdKeep] at h

theorem mdProcess_good (fp : String) (lines : List (List Char)) :
    ∀ (rem : List (List Char)) (i : Nat) (st : MdState),
      rem = lines.drop (i - 1) → 1 ≤ i → i - 1 ≤ lines.length →
      1 ≤ st.curStart → st.curStart ≤ i →
      st.cur = (lines.drop (st.curStart - 1)).take (i - st.curStart) →
      (∀ c ∈ st.chunks, c.start_line ≤ c.end_line ∧
        reconstructL lines c.start_line c.end_line = c.content) →
      ((∀ c ∈ (mdProcess fp i st rem).chunks, c.start_line ≤ c.end_line ∧
          reconstructL lines c.start_line c.end_line = c.content) ∧
        1 ≤ (mdProcess fp i st rem).curStart ∧
        (mdProcess fp i st rem).cur =
          (lines.drop ((mdProcess fp i st rem).curStart - 1)).take
            (lines.length + 1 - (mdProcess fp i st rem).curStart)) := by
  intro rem
  induction rem with
  | nil =>
    intro i st hrem hi hil hc1 hci hcur hgood
    have hieq : i = lines.length + 1 := by
      have := congrArg List.length hrem
      simp [List.length_drop] at this
      omega
    subst hieq
    exact ⟨hgood, hc1, hcur⟩
  | cons line rest ih =>
    intro i st hrem hi hil hc1 hci hcur hgood
    have hlen : i - 1 < lines.length := by
      have := congrArg List.length hrem
      simp [List.length_drop] at this
      omega
    have hrest : rest = lines.drop i := by
      have h2 : lines.drop i = (lines.drop (i - 1)).drop 1 := by
        rw [List.drop_drop]
        congr 1
        omega
      rw [h2, ← hrem]
      rfl
    have htake1 : (lines.drop (i - 1)).take 1 = [line] := by rw [← hrem]; rfl
    have happ : st.cur ++ [line] =
        (lines.drop (st.curStart - 1)).take (i + 1 - st.curStart) := by
      have harith : i + 1 - st.curStart = (i - st.curStart) + 1 := by omega
      rw [harith, List.take_add]
      have hdd : (lines.drop (st.curStart - 1)).drop (i - st.curStart) = lines.drop (i - 1) := by
        rw [List.drop_drop]
        congr 1
        omega
      rw [hdd, htake1, ← hcur]
    simp only [mdProcess]
    by_cases hh : headerMatches line
    · have hstep : mdStep fp i line st =
          ⟨(if mdKeep st.cur then st.chunks ++
              [⟨joinNl st.cur, fp, st.curStart, i - 1, "section",
                st.curName.map String.mk, "markdown"⟩]
            else st.chunks), [line], Option.some (headerName line), i⟩ := by
        simp [mdStep, hh]
      rw [hstep]
      apply ih (i + 1) _ (by rw [hrest]; simp) (by omega) (by show i + 1 - 1 ≤ lines.length; omega)
        (by show 1 ≤ i; omega) (by show i ≤ i + 1; omega)
      · show [line] = (lines.drop (i - 1)).take (i + 1 - i)
        rw [show i + 1 - i = 1 from by omega, htake1]
      · intro c hc
        by_cases hk : mdKeep st.cur
        · rw [if_pos hk] at hc
          rcases List.mem_append.mp hc with hold | hnew
          · exact hgood c hold
          · have hcc := List.mem_singleton.mp hnew
            subst hcc
            have hne : st.cur ≠ [] := mdKeep_ne_nil hk
            have hige : st.curStart ≤ i - 1 := by
              by_contra hlt
              have : i - st.curStart = 0 := by omega
              rw [this] at hcur
              simp at hcur
              exact hne hcur
            refine ⟨hige, ?_⟩
            show reconstructL lines st.curStart (i - 1) = joinNl st.cur
            unfold reconstructL
            rw [show i - 1 + 1 - st.curStart = i - st.curStart from by omega, ← hcur]
        · rw [if_neg hk] at hc
          exact hgood c hc
    · have hstep : mdStep fp i line st =
          ⟨st.chunks, st.cur ++ [line], st.curName, st.curStart⟩ := by
        simp [mdStep, hh]
      rw [hstep]
      exact ih (i + 1) _ (by rw [hrest]; simp) (by omega)
        (by show i + 1 - 1 ≤ lines.length; omega) hc1 (by show st.curStart ≤ i + 1; omega)
        happ hgood

theorem mdFlush_good (fp : String) (content : List Char) (st : MdState)
    (hc1 : 1 ≤ st.curStart)
    (hcur : st.cur = ((splitNl content).drop (st.curStart - 1)).take
      ((splitNl content).length + 1 - st.curStart))
    (hgood : ∀ c ∈ st.chunks, chunkGood content c) :
    ∀ c ∈ mdFlush fp st (splitNl content).length, chunkGood content c := by
  intro c hc
  unfold mdFlush at hc
  by_cases hk : mdKeep st.cur
  · rw [if_pos hk] at hc
    rcases List.mem_append.mp hc with hold | hnew
    · exact hgood c hold
    · have hcc := List.mem_singleton.mp hnew
      subst hcc
      have hne : st.cur ≠ [] := mdKeep_ne_nil hk
      have hdropne : (splitNl content).drop (st.curStart - 1) ≠ [] := by
        intro hd
        rw [hd] at hcur
        simp at hcur
        exact hne hcur
      have hlt : st.curStart - 1 < (splitNl content).length := by
        by_contra hge
        exact hdropne (List.drop_eq_nil_of_le (by omega))
      refine ⟨by show st.curStart ≤ (splitNl content).length; omega, ?_⟩
      show reconstructL (splitNl content) st.curStart (splitNl content).length = joinNl st.cur
      unfold reconstructL
      rw [← hcur]
  · rw [if_neg hk] at hc
    exact hgood c hc

/-- Chunks of the markdown chunker satisfy the full line-range invariant. -/
theorem markdown_chunker_good (content : List Char) (fp : String) :
    ∀ c ∈ MarkdownChunker.chunk content fp, chunkGood content c := by
  intro c hc
  have hproc := mdProcess_good fp (splitNl content) (splitNl content) 1 ⟨[], [], Option.none, 1⟩
    (by simp) (le_refl 1) (by simp) (le_refl 1) (le_refl 1) (by simp)
    (by intro c hc; cases hc)
  obtain ⟨hgood, hp1, hpcur⟩ := hproc
  simp only [MarkdownChunker.chunk] at hc
  by_cases hemp :
      ((mdFlush fp (mdProcess fp 1 ⟨[], [], Option.none, 1⟩ (splitNl content))
        (splitNl content).length).isEmpty && !(pyStripChars content).isEmpty) = true
  · rw [if_pos hemp] at hc
    have hcc := List.mem_singleton.mp hc
    subst hcc
    exact ⟨one_le_length_splitNl content, reconstruct_whole content⟩
  · rw [if_neg hemp] at hc
    exact mdFlush_good fp content _ hp1 hpcur hgood c hc

/-! The Python AST chunker keeps exact line ranges. -/

theorem foldl_min_le (l : List Nat) (init : Nat) : l.foldl Nat.min init ≤ init := by
  induction l generalizing init with
  | nil => exact le_refl _
  | cons x xs ih => exact le_trans (ih (min init x)) (Nat.min_le_left _ _)

theorem le_foldl_min (l : List Nat) (init m : Nat) (hi : m ≤ init) (hl : ∀ x ∈ l, m ≤ x) :
    m ≤ l.foldl Nat.min init := by
  induction l generalizing init with
  | nil => exact hi
  | cons x xs ih =>
    exact ih (min init x) (le_min hi (hl x (by simp))) (fun y hy => hl y (by simp [hy]))

theorem decoStart_bounds (lineno : Nat) (ds : List Nat) (h1 : 1 ≤ lineno)
    (hds : ∀ d ∈ ds, 1 ≤ d ∧ d ≤ lineno) :
    1 ≤ PythonASTChunker.decoStart lineno ds ∧
      PythonASTChunker.decoStart lineno ds ≤ lineno := by
  cases ds with
  | nil => exact ⟨h1, le_refl _⟩
  | cons d rest =>
    constructor
    · exact le_foldl_min rest d 1 (hds d (by simp)).1 (fun x hx => (hds x (by simp [hx])).1)
    · exact le_trans (foldl_min_le rest d) (hds d (by simp)).2

theorem lineno_le_get_end_line (lineno : Nat) (endL : Option Nat)
    (h : ∀ e, endL = Option.some e → lineno ≤ e) :
    lineno ≤ PythonASTChunker.get_end_line lineno endL := by
  cases endL with
  | none => exact le_refl _
  | some e =>
    show lineno ≤ (if e ≠ 0 then e else lineno)
    by_cases he : e ≠ 0
    · rw [if_pos he]
      exact h e rfl
    · rw [if_neg he]

theorem segment_reconstruct (lines : List (List Char)) (s e : Nat) (hs : 1 ≤ s) :
    reconstructL lines s e = PythonASTChunker.get_source_segment lines s e := by
  unfold reconstructL PythonASTChunker.get_source_segment
  have h : e + 1 - s = e - (s - 1) := by omega
  rw [h]

mutual

theorem extract_chunks_good (content : List Char) (fp : String) :
    ∀ (a : PyAst) (parent : Option String), WfAst a →
      ∀ c ∈ PythonASTChunker.extract_chunks (splitNl content) fp parent a, chunkGood content c
  | .functionDef name lineno endL ds body, parent, hwf, c, hc => by
      cases hwf with
      | functionDef h1 hds hend _ =>
        simp only [PythonASTChunker.extract_chunks, List.mem_singleton] at hc
        subst hc
        obtain ⟨hd1, hd2⟩ := decoStart_bounds lineno ds h1 hds
        have he := lineno_le_get_end_line lineno endL hend
        refine ⟨?_, ?_⟩
        · show PythonASTChunker.decoStart lineno ds ≤ PythonASTChunker.get_end_line lineno endL
          omega
        · exact segment_reconstruct _ _ _ hd1
  | .classDef name lineno endL ds body, parent, hwf, c, hc => by
      cases hwf with
      | classDef h1 hds hend hbody =>
        simp only [PythonASTChunker.extract_chunks, List.mem_cons] at hc
        rcases hc with hc0 | hcrest
        · subst hc0
          obtain ⟨hd1, hd2⟩ := decoStart_bounds lineno ds h1 hds
          have he := lineno_le_get_end_line lineno endL hend
          refine ⟨?_, ?_⟩
          · show PythonASTChunker.decoStart lineno ds ≤ PythonASTChunker.get_end_line lineno endL
            omega
          · exact segment_reconstruct _ _ _ hd1
        · exact extract_chunks_list_good content fp body (some name) hbody c hcrest
  | .otherNode children, parent, hwf, c, hc => by
      cases hwf with
      | otherNode hch =>
        simp only [PythonASTChunker.extract_chunks] at hc
        exact extract_chunks_list_good content fp children parent hch c hc

theorem extract_chunks_list_good (content : List Char) (fp : String) :
    ∀ (l : List PyAst) (parent : Option String), (∀ a ∈ l, WfAst a) →
      ∀ c ∈ PythonASTChunker.extract_chunks_list (splitNl content) fp parent l,
        chunkGood content c
  | [], _, _, c, hc => by cases hc
  | a :: rest, parent, hwf, c, hc => by
      simp only [PythonASTChunker.extract_chunks_list] at hc
      rcases List.mem_append.mp hc with h | h
      · exact extract_chunks_good content fp a parent (hwf a (by simp)) c h
      · exact extract_chunks_list_good content fp rest parent
          (fun x hx => hwf x (by simp [hx])) c h

end

/-- Chunks of the Python AST chunker satisfy the full line-range invariant,
for any well-formed parse result. -/
theorem python_chunker_good (parseResult : Option PyAst) (content : List Char) (fp : String)
    (hwf : ∀ t, parseResult = Option.some t → WfAst t) :
    ∀ c ∈ PythonASTChunker.chunk parseResult content fp, chunkGood content c := by
  intro c hc
  cases parseResult with
  | none =>
    simp only [PythonASTChunker.chunk, List.mem_singleton] at hc
    subst hc
    refine ⟨?_, ?_⟩
    · show 1 ≤ content.count '\n' + 1
      omega
    · show reconstructL (splitNl content) 1 (content.count '\n' + 1) = content
      rw [← length_splitNl]
      exact reconstruct_whole content
  | some tree =>
    simp only [PythonASTChunker.chunk] at hc
    by_cases hemp : ((PythonASTChunker.extract_chunks (splitNl content) fp Option.none tree).isEmpty
        && !(pyStripChars content).isEmpty) = true
    · rw [if_pos hemp] at hc
      have hcc := List.mem_singleton.mp hc
      subst hcc
      exact ⟨one_le_length_splitNl content, reconstruct_whole content⟩
    · rw [if_neg hemp] at hc
      exact extract_chunks_good content fp tree Option.none (hwf tree rfl) c hc

/-! The tree-sitter chunker: byte spans versus line ranges. -/

theorem lineStart_zero (lines : List (List Char)) : lineStart lines 0 = 0 := by
  simp [lineStart]

theorem lineStart_succ_cons (l : List Char) (ls : List (List Char)) (r : Nat) :
    lineStart (l :: ls) (r + 1) = l.length + 1 + lineStart ls r := by
  unfold lineStart
  rw [List.take_succ_cons, List.map_cons, List.sum_cons]
  omega

theorem drop_joinNl : ∀ (lines : List (List Char)) (r : Nat), r < lines.length →
    (joinNl lines).drop (lineStart lines r) = joinNl (lines.drop r) := by
  intro lines r
  induction r generalizing lines with
  | zero =>
    intro _
    rw [lineStart_zero, List.drop_zero, List.drop_zero]
  | succ r ih =>
    intro h
    cases lines with
    | nil => simp at h
    | cons l ls =>
      cases ls with
      | nil => simp at h
      | cons l2 ls2 =>
        rw [lineStart_succ_cons]
        have hj : joinNl (l :: l2 :: ls2) = l ++ '\n' :: joinNl (l2 :: ls2) := rfl
        rw [hj]
        have harr : l.length + 1 + lineStart (l2 :: ls2) r =
            l.length + (lineStart (l2 :: ls2) r + 1) := by omega
        rw [harr, List.drop_append, List.drop_succ_cons, List.drop_succ_cons]
        exact ih (l2 :: ls2) (by simpa using h)

theorem take_joinNl : ∀ (lines : List (List Char)) (k : Nat), k < lines.length →
    joinNl (lines.take (k + 1)) =
      (joinNl lines).take (lineStart lines k + (lines.getD k []).length) := by
  intro lines k
  induction k generalizing lines with
  | zero =>
    intro h
    cases lines with
    | nil => simp at h
    | cons l ls =>
      rw [lineStart_zero]
      cases ls with
      | nil =>
        show l = (joinNl [l]).take (0 + l.length)
        rw [Nat.zero_add]
        exact (List.take_length l).symm
      | cons l2 ls2 =>
        show l = (l ++ '\n' :: joinNl (l2 :: ls2)).take (0 + l.length)
        rw [Nat.zero_add]
        exact (List.take_left _ _).symm
  | succ k ih =>
    intro h
    cases lines with
    | nil => simp at h
    | cons l ls =>
      cases ls with
      | nil => simp at h
      | cons l2 ls2 =>
        have hlhs : joinNl ((l :: l2 :: ls2).take (k + 1 + 1)) =
            l ++ '\n' :: joinNl ((l2 :: ls2).take (k + 1)) := by
          rw [List.take_succ_cons, List.take_succ_cons]
          rfl
        rw [hlhs, ih (l2 :: ls2) (by simpa using h), lineStart_succ_cons]
        have hgd : (l :: l2 :: ls2).getD (k + 1) [] = (l2 :: ls2).getD k [] := rfl
        rw [hgd]
        have harr : l.length + 1 + lineStart (l2 :: ls2) k + ((l2 :: ls2).getD k []).length =
            l.length + (lineStart (l2 :: ls2) k + ((l2 :: ls2).getD k []).length + 1) := by
          omega
        rw [harr]
        have hj : joinNl (l :: l2 :: ls2) = l ++ '\n' :: joinNl (l2 :: ls2) := rfl
        rw [hj, List.take_append, List.take_succ_cons]

theorem lineStart_add (lines : List (List Char)) (m k : Nat) :
    lineStart lines (m + k) = lineStart lines m + lineStart (lines.drop m) k := by
  unfold lineStart
  rw [List.take_add, List.map_append, List.sum_append]
  omega

theorem getD_drop : ∀ (lines : List (List Char)) (m k : Nat),
    (lines.drop m).getD k [] = lines.getD (m + k) [] := by
  intro lines m
  induction m generalizing lines with
  | zero => intro k; rw [List.drop_zero, Nat.zero_add]
  | succ m ih =>
    intro k
    cases lines with
    | nil => rfl
    | cons l ls =>
      show (ls.drop m).getD k [] = (l :: ls).getD (m + 1 + k) []
      rw [ih ls]
      rw [show m + 1 + k = (m + k) + 1 from by omega]
      rfl

theorem take_decompose {α : Type} (X : List α) (a t M : Nat) (h : a + t ≤ M) :
    X.take M = (X.take M).take a ++ (X.drop a).take t ++ (X.take M).drop (a + t) := by
  rw [List.append_assoc]
  conv_lhs => rw [← List.take_append_drop a (X.take M)]
  congr 1
  rw [List.drop_take, List.drop_take]
  rw [show M - a = t + (M - (a + t)) from by omega, List.take_add]
  rw [List.drop_drop]

theorem ts_chunk_infix (content : List Char) (sb eb sr sc er ec : Nat)
    (hsb : sb = posOffset (splitNl content) sr sc)
    (heb : eb = posOffset (splitNl content) er ec)
    (hle : sb ≤ eb) (hrow : sr ≤ er) (her : er < (splitNl content).length)
    (hec : ec ≤ ((splitNl content).getD er []).length) :
    ∃ pre suf, reconstructL (splitNl content) (sr + 1) (er + 1) =
      pre ++ TreeSitterChunker.node_text content sb eb ++ suf := by
  have hsr : sr < (splitNl content).length := Nat.lt_of_le_of_lt hrow her
  have hrec : reconstructL (splitNl content) (sr + 1) (er + 1) =
      joinNl (((splitNl content).drop sr).take (er - sr + 1)) := by
    unfold reconstructL
    rw [show sr + 1 - 1 = sr from by omega,
      show er + 1 + 1 - (sr + 1) = er - sr + 1 from by omega]
  have hkL : er - sr < ((splitNl content).drop sr).length := by
    rw [List.length_drop]
    omega
  have htj := take_joinNl ((splitNl content).drop sr) (er - sr) hkL
  have hdj := drop_joinNl (splitNl content) sr hsr
  have hnt : TreeSitterChunker.node_text content sb eb =
      ((joinNl ((splitNl content).drop sr)).drop sc).take (eb - sb) := by
    unfold TreeSitterChunker.node_text
    conv_lhs => rw [(joinNl_splitNl content).symm]
    congr 1
    rw [hsb]
    show (joinNl (splitNl content)).drop (lineStart (splitNl content) sr + sc) = _
    have hsplit2 : (joinNl (splitNl content)).drop (lineStart (splitNl content) sr + sc) =
        ((joinNl (splitNl content)).drop (lineStart (splitNl content) sr)).drop sc := by
      rw [List.drop_drop]
    rw [hsplit2, hdj]
  have hsplit : lineStart (splitNl content) er =
      lineStart (splitNl content) sr + lineStart ((splitNl content).drop sr) (er - sr) := by
    have h0 := lineStart_add (splitNl content) sr (er - sr)
    rw [show sr + (er - sr) = er from by omega] at h0
    exact h0
  have hgd : (((splitNl content).drop sr).getD (er - sr) []).length =
      ((splitNl content).getD er []).length := by
    rw [getD_drop]
    rw [show sr + (er - sr) = er from by omega]
  have hM : sc + (eb - sb) ≤ lineStart ((splitNl content).drop sr) (er - sr) +
      (((splitNl content).drop sr).getD (er - sr) []).length := by
    unfold posOffset at hsb heb
    rw [hgd]
    omega
  refine ⟨((joinNl ((splitNl content).drop sr)).take
      (lineStart ((splitNl content).drop sr) (er - sr) +
        (((splitNl content).drop sr).getD (er - sr) []).length)).take sc,
    ((joinNl ((splitNl content).drop sr)).take
      (lineStart ((splitNl content).drop sr) (er - sr) +
        (((splitNl content).drop sr).getD (er - sr) []).length)).drop (sc + (eb - sb)), ?_⟩
  rw [hrec, htj, hnt]
  exact take_decompose _ sc (eb - sb) _ hM

mutual

theorem walk_tree_good (content : List Char) (fp lang : String) :
    ∀ (n : TSNode), tsWf (splitNl content) n = true →
      ∀ c ∈ TreeSitterChunker.walk_tree content fp lang n,
        c.start_line ≤ c.end_line ∧
        ∃ pre suf, reconstructL (splitNl content) c.start_line c.end_line =
          pre ++ c.content ++ suf
  | .node ty sb eb sr sc er ec children, hwf, c, hc => by
      simp only [tsWf, Bool.and_eq_true, decide_eq_true_eq] at hwf
      obtain ⟨⟨⟨⟨⟨⟨⟨hsb, heb⟩, hle⟩, hrow⟩, her⟩, hsc⟩, hec⟩, hch⟩ := hwf
      simp only [TreeSitterChunker.walk_tree] at hc
      rcases List.mem_append.mp hc with hhere | hchild
      · by_cases hsk : TreeSitterChunker.should_chunk ty
        · rw [if_pos hsk] at hhere
          by_cases hlen :
              20 < (pyStripChars (TreeSitterChunker.node_text content sb eb)).length
          · rw [if_pos hlen] at hhere
            have hcc := List.mem_singleton.mp hhere
            subst hcc
            refine ⟨by show sr + 1 ≤ er + 1; omega, ?_⟩
            exact ts_chunk_infix content sb eb sr sc er ec hsb heb hle hrow her hec
          · rw [if_neg hlen] at hhere
            cases hhere
        · rw [if_neg hsk] at hhere
          cases hhere
      · exact walk_children_good content fp lang children hch c hchild

theorem walk_children_good (content : List Char) (fp lang : String) :
    ∀ (l : List TSNode), tsWfList (splitNl content) l = true →
      ∀ c ∈ TreeSitterChunker.walk_children content fp lang l,
        c.start_line ≤ c.end_line ∧
        ∃ pre suf, reconstructL (splitNl content) c.start_line c.end_line =
          pre ++ c.content ++ suf
  | [], _, c, hc => by cases hc
  | n :: rest, hwf, c, hc => by
      simp only [tsWfList, Bool.and_eq_true] at hwf
      simp only [TreeSitterChunker.walk_children] at hc
      rcases List.mem_append.mp hc with h | h
      · exact walk_tree_good content fp lang n hwf.1 c h
      · exact walk_children_good content fp lang rest hwf.2 c h

end

/-- Chunks of the tree-sitter chunker: forward line ranges, and content is
an infix (the node's exact byte span) of the joined line range. -/
theorem treesitter_chunker_good (root : TSNode) (content : List Char) (fp : String)
    (hwf : tsWf (splitNl content) root = true) :
    ∀ c ∈ TreeSitterChunker.chunk root content fp,
      c.start_line ≤ c.end_line ∧
      ∃ pre suf, reconstructL (splitNl content) c.start_line c.end_line =
        pre ++ c.content ++ suf := by
  intro c hc
  simp only [TreeSitterChunker.chunk] at hc
  by_cases hemp : ((TreeSitterChunker.walk_tree content fp
      (TreeSitterChunker.language_of fp) root).isEmpty &&
      !(pyStripChars content).isEmpty) = true
  · rw [if_pos hemp] at hc
    have hcc := List.mem_singleton.mp hc
    subst hcc
    refine ⟨?_, [], [], ?_⟩
    · show 1 ≤ content.count '\n' + 1
      omega
    · show reconstructL (splitNl content) 1 (content.count '\n' + 1) = [] ++ content ++ []
      rw [← length_splitNl, reconstruct_whole]
      simp
  · rw [if_neg hemp] at hc
    exact walk_tree_good content fp _ root hwf c hc

/-- C2 counterexample: on a TypeScript class with an indented method, the
tree-sitter chunker records the method's byte span as content; joining the
covered line range of the original content yields the full line including
its two leading indentation spaces, which differs from the recorded
content. -/
theorem treesitter_reconstruction_counterexample :
    tsWf (splitNl tsDemoSource) tsDemoTree = true ∧
    (TreeSitterChunker.chunk tsDemoTree tsDemoSource "a.ts").get? 1 =
      some ⟨tsDemoMethodContent, "a.ts", 2, 2, "method", some "m", "typescript"⟩ ∧
    reconstructL (splitNl tsDemoSource) 2 2 ≠ tsDemoMethodContent := by
  exact ⟨by decide, by decide, by decide⟩

/-- C2 (amended): every chunk of the three chunkers satisfies start_line ≤
end_line; the markdown and Python AST chunkers (and every whole-file
fallback) reconstruct the recorded content exactly by joining lines
start_line through end_line of the original content; for tree-sitter chunks
the recorded content is the node's exact byte span, an infix of that joined
line range — equal to it only when the node starts at column zero and ends
at the end of its last line. -/
theorem chunkers_line_range_amended :
    (∀ (content : List Char) (fp : String), ∀ c ∈ MarkdownChunker.chunk content fp,
      chunkGood content c) ∧
    (∀ (parseResult : Option PyAst) (content : List Char) (fp : String),
      (∀ t, parseResult = Option.some t → WfAst t) →
      ∀ c ∈ PythonASTChunker.chunk parseResult content fp, chunkGood content c) ∧
    (∀ (root : TSNode) (content : List Char) (fp : String),
      tsWf (splitNl content) root = true →
      ∀ c ∈ TreeSitterChunker.chunk root content fp,
        c.start_line ≤ c.end_line ∧
        ∃ pre suf, reconstructL (splitNl content) c.start_line c.end_line =
          pre ++ c.content ++ suf) :=
  ⟨markdown_chunker_good, python_chunker_good, treesitter_chunker_good⟩

/-- C2 witness: the amended statement at concrete inputs for all three
chunkers. -/
theorem chunkers_line_range_amended_w :
    chunkGood ("# One\nalpha").toList
      ⟨("# One\nalpha").toList, "README.md", 1, 2, "section", some "One", "markdown"⟩ ∧
    chunkGood ("def f():\n    return 1").toList
      ⟨("def f():\n    return 1").toList, "a.py", 1, 2, "function", some "f", "python"⟩ ∧
    (2 ≤ 2 ∧ ∃ pre suf, reconstructL (splitNl tsDemoSource) 2 2 =
      pre ++ tsDemoMethodContent ++ suf) := by
  refine ⟨?_, ?_, ?_⟩
  · exact chunkers_line_range_amended.1 ("# One\nalpha").toList "README.md" _ (by decide)
  · refine chunkers_line_range_amended.2.1
      (some (PyAst.functionDef "f" 1 (some 2) [] [])) ("def f():\n    return 1").toList
      "a.py" ?_ _ (by decide)
    intro t ht
    injection ht with h
    subst h
    refine WfAst.functionDef (by omega) ?_ ?_ ?_
    · intro d hd
      cases hd
    · intro e he
      injection he with h2
      omega
    · intro a ha
      cases ha
  · exact chunkers_line_range_amended.2.2 tsDemoTree tsDemoSource "a.ts" (by decide)
      ⟨tsDemoMethodContent, "a.ts", 2, 2, "method", some "m", "typescript"⟩ (by decide)

/-- C7: in every review and fix run, every tool_use block of an assistant
turn is answered by a matching tool_result (same tool_use id, same order)
in the immediately following user turn, appended before the next model call;
a final assistant turn carries no unanswered invocation. -/
theorem tool_invocations_answered (model : List Message → ModelResponse)
    (c : ReviewCollab) (cf : FixCollab) (initR initF : String) :
    answered (review_pr model c initR).messages ∧
    answered (fix_code model cf initF).messages := by
  constructor
  · exact review_loop_answered model c reviewMaxIterations _ 0 0 [] trivial
      ⟨TurnContent.text initR, by simp⟩
  · show answered (fix_loop model cf fixMaxIterations
      [Message.user (TurnContent.text initF)] false 0 []).messages
    exact fix_loop_answered model cf fixMaxIterations _ false 0 [] trivial
      ⟨TurnContent.text initF, by simp⟩

end ReviewAgent
